import Mathlib

/-!
Verification development for the h5p library-management core:
version identities (`LibraryName`), the library manager's
install/update/rollback logic, the cached library storage decorator,
and the package extraction pipeline.
-/

namespace H5P

/-! Part: Decimal rendering of natural numbers (JS template-literal `${n}`) -/
/-- The decimal digit character for `r` (`r` is taken mod nothing; callers pass `r < 10`). -/
def decDigit (r : Nat) : Char :=
  match r with
  | 0 => '0' | 1 => '1' | 2 => '2' | 3 => '3' | 4 => '4'
  | 5 => '5' | 6 => '6' | 7 => '7' | 8 => '8' | _ => '9'

/-- Numeric value of a decimal digit character (JS `parseInt` digit step). -/
def digitVal (c : Char) : Nat := c.toNat - 48

/-- Auxiliary fuel-driven recursion for `natToDec` (the fuel only makes the
recursion structural; `natToDec_eq` gives the fuel-free equation). -/
def natToDecAux : Nat → Nat → List Char
  | 0, _ => []
  | fuel + 1, n =>
    if n < 10 then [decDigit n]
    else natToDecAux fuel (n / 10) ++ [decDigit (n % 10)]

/-- Decimal representation of a natural number as a list of characters,
as produced by a JS template literal `${n}` for a nonnegative integer. -/
def natToDec (n : Nat) : List Char := natToDecAux (n + 1) n

/-- JS `Number.parseInt(s, 10)` on a string of decimal digits. -/
def parseDigits (l : List Char) : Nat :=
  l.foldl (fun a c => a * 10 + digitVal c) 0

/-- Is `c` a decimal digit (regex `\d`)? -/
def isDigitChar (c : Char) : Bool := '0' ≤ c && c ≤ '9'

/-! Part: LibraryName: version identities and ubername conversion -/
/-- The `(machineName, majorVersion, minorVersion)` identity of a library
(patch version is excluded from identity), as in `LibraryName.ts`. -/
structure LibraryName where
  machineName : String
  majorVersion : Nat
  minorVersion : Nat
deriving DecidableEq, Repr

namespace LibraryName

/-- Source `LibraryName.toUberName` with the default `{useHyphen: true}` option:
`` `${machineName}-${majorVersion}.${minorVersion}` ``. -/
def toUberName (lib : LibraryName) : String :=
  lib.machineName ++ "-" ++ ⟨natToDec lib.majorVersion⟩ ++ "." ++ ⟨natToDec lib.minorVersion⟩

/-- Match `(\d+)\.(\d+)` at the start of `l` (greedy digit runs; the greedy
run is the only candidate since a shorter run would be followed by a digit,
not `'.'`), returning the two digit groups. -/
def matchDigitsDotDigits (l : List Char) : Option (List Char × List Char) :=
  let M := l.takeWhile isDigitChar
  if M.isEmpty then none
  else
    match l.dropWhile isDigitChar with
    | '.' :: r2 =>
      let m := r2.takeWhile isDigitChar
      if m.isEmpty then none else some (M, m)
    | _ => none

/-- One backtracking attempt of `/([^\s]+)-(\d+)\.(\d+)/` at the current
offset of `l` with group 1 being exactly the first `k` characters. -/
def tryK (l : List Char) (k : Nat) : Option (List Char × List Char × List Char) :=
  if 1 ≤ k ∧ (l.take k).all (fun c => !c.isWhitespace) ∧ l[k]? = some '-' then
    (matchDigitsDotDigits (l.drop (k + 1))).map (fun Mm => (l.take k, Mm.1, Mm.2))
  else none

/-- Backtracking over group-1 lengths `k, k-1, …, 1` (greedy: longest first). -/
def descend (l : List Char) : Nat → Option (List Char × List Char × List Char)
  | 0 => none
  | k + 1 => ((tryK l (k + 1)).orElse (fun _ => descend l k))

/-- All backtracking attempts at the current start offset (group 1 can be at
most `l.length - 1` characters as a `'-'` must follow). -/
def tryStart (l : List Char) : Option (List Char × List Char × List Char) :=
  descend l (l.length - 1)

/-- JS `RegExp.exec` for `/([^\s]+)-(\d+)\.(\d+)/`: scan start offsets left to
right, at each attempting the greedy backtracking match. -/
def execHyphenRegex : List Char → Option (List Char × List Char × List Char)
  | [] => none
  | l@(_ :: rest) =>
    match tryStart l with
    | some r => some r
    | none => execHyphenRegex rest

/-- Source `LibraryName.fromUberName` on the default `{useHyphen: true,
useWhitespace: false}` options path: the regex `/([^\s]+)-(\d+)\.(\d+)/`
is executed and the numeric groups parsed with `Number.parseInt(·, 10)`;
`none` models the `undefined` returned when the regex does not match. -/
def fromUberName (s : String) : Option LibraryName :=
  (execHyphenRegex s.data).map fun r =>
    ⟨⟨r.1⟩, parseDigits r.2.1, parseDigits r.2.2⟩

end LibraryName

/-! Part: Library metadata -/
/-- Library metadata (`ILibraryMetadata`, parsed from `library.json`):
identity fields, patch version, and the referenced asset lists.
`isAddon` models the presence of the `addTo` field that makes a library an
addon; `preloadedJs`/`preloadedCss` hold the `path` fields of the entries. -/
structure LibraryMetadata where
  machineName : String
  majorVersion : Nat
  minorVersion : Nat
  patchVersion : Nat
  runnable : Bool := false
  preloadedJs : List String := []
  preloadedCss : List String := []
  isAddon : Bool := false
deriving DecidableEq, Repr

/-- The identity of a metadata record (patch version excluded). -/
def LibraryMetadata.name (md : LibraryMetadata) : LibraryName :=
  ⟨md.machineName, md.majorVersion, md.minorVersion⟩

namespace CachedLibraryStorage

/-! Part: Cached library storage: backing model -/
/-- A library record held by the backing storage (`IInstalledLibrary`):
metadata plus the `restricted` flag. -/
structure StoredLibrary where
  metadata : LibraryMetadata
  restricted : Bool
deriving DecidableEq, Repr

/-- Modelled from the spec: the backing `ILibraryStorage` collaborator
(§6 storage contract) is not part of the sources. It is modelled as
in-memory maps with the contract semantics: one record per installed
identity, one content string per `(identity, filename)`, and an optional
`listAddons` capability (`hasListAddons`). -/
structure Backing where
  libraries : List (LibraryName × StoredLibrary)
  files : List ((LibraryName × String) × String)
  hasListAddons : Bool
deriving DecidableEq, Repr

/-- Look up an installed library record by identity. -/
def lookupLib (b : Backing) (lib : LibraryName) : Option StoredLibrary :=
  (b.libraries.find? (fun p => p.1 == lib)).map (·.2)

/-- Look up a stored file's content. -/
def lookupFile (b : Backing) (lib : LibraryName) (fn : String) : Option String :=
  (b.files.find? (fun p => p.1 == (lib, fn))).map (·.2)

/-- Backing `listFiles`: the files stored for a library. -/
def listFiles (b : Backing) (lib : LibraryName) : List String :=
  b.files.filterMap (fun p => if p.1.1 == lib then some p.1.2 else none)

/-- The language code of a stored file named `language/<code>.json`,
or `none` for any other file. -/
def langFileCode (f : String) : Option String :=
  let l := f.data
  if l.take 9 = "language/".data ∧ 14 ≤ l.length ∧ l.drop (l.length - 5) = ".json".data then
    some ⟨(l.drop 9).take (l.length - 14)⟩
  else none

/-- Backing `getLanguages`: the codes of the `language/<code>.json` files of a
library (the backing storage derives them from the stored files). -/
def languageCodes (b : Backing) (lib : LibraryName) : List String :=
  (listFiles b lib).filterMap langFileCode

/-- Backing `addFile`: store (or replace) a file's content. -/
def bAddFile (b : Backing) (lib : LibraryName) (fn content : String) : Backing :=
  { b with files := ((lib, fn), content) :: b.files.filter (fun p => p.1 != (lib, fn)) }

/-- Backing `addLibrary`: create the record for a new identity (the backing
storage rejects an identity that is already installed; the state is then
unchanged). -/
def bAddLibrary (b : Backing) (md : LibraryMetadata) (restricted : Bool) : Backing :=
  match lookupLib b md.name with
  | some _ => b
  | none => { b with libraries := (md.name, ⟨md, restricted⟩) :: b.libraries }

/-- Backing `clearFiles`: remove all files of a library. -/
def bClearFiles (b : Backing) (lib : LibraryName) : Backing :=
  { b with files := b.files.filter (fun p => p.1.1 != lib) }

/-- Backing `deleteLibrary`: remove the record and the files of a library. -/
def bDeleteLibrary (b : Backing) (lib : LibraryName) : Backing :=
  { b with
    libraries := b.libraries.filter (fun p => p.1 != lib),
    files := b.files.filter (fun p => p.1.1 != lib) }

/-- Backing `updateLibrary`: replace the metadata of an installed identity in
place (an identity that is not installed is rejected; state unchanged). -/
def bUpdateLibrary (b : Backing) (md : LibraryMetadata) : Backing :=
  { b with
    libraries := b.libraries.map (fun p =>
      if p.1 == md.name then (p.1, ⟨md, p.2.restricted⟩) else p) }

/-- Backing `updateAdditionalMetadata`: set the `restricted` flag in place. -/
def bUpdateAdditionalMetadata (b : Backing) (lib : LibraryName) (restricted : Bool) : Backing :=
  { b with
    libraries := b.libraries.map (fun p =>
      if p.1 == lib then (p.1, ⟨p.2.metadata, restricted⟩) else p) }

/-! Part: Cache keys (from `CachedLibraryStorage.ts`) -/
def ADDONS_CACHE_KEY : String := "addons"

def FILE_EXISTS_CACHE_KEY : String := "exists"

def INSTALLED_LIBRARY_NAMES_CACHE_KEY : String := "installed-library-names"

def JSON_CACHE_KEY : String := "json"

def LANGUAGES_CACHE_KEY : String := "languages"

def LIBRARY_IS_INSTALLED_CACHE_KEY : String := "is-installed"

def METADATA_CACHE_KEY : String := "metadata"

def STRING_CACHE_KEY : String := "string"

/-- Key `` `${toUberName(library)}/${filename}-${usage}` ``. -/
def getCacheKeyForFile (library : LibraryName) (filename usage : String) : String :=
  LibraryName.toUberName library ++ "/" ++ filename ++ "-" ++ usage

/-- Key `` `${INSTALLED_LIBRARY_NAMES_CACHE_KEY}-${machineName}` ``. -/
def getCacheKeyForLibraryListByMachineName (machineName : String) : String :=
  INSTALLED_LIBRARY_NAMES_CACHE_KEY ++ "-" ++ machineName

/-- Key `` `${toUberName(library)}-${usage}` ``. -/
def getCacheKeyForMetadata (library : LibraryName) (usage : String) : String :=
  LibraryName.toUberName library ++ "-" ++ usage

/-! Part: The cache collaborator (atomic per-key get/set/delete) -/
/-- Values held by the injected cache. -/
inductive CacheValue
  | bool (b : Bool)
  | str (s : String)
  | names (l : List LibraryName)
  | langs (l : List String)
  | record (r : StoredLibrary)
  | metas (l : List LibraryMetadata)
deriving DecidableEq, Repr

/-- The cache, as an association list keyed by the cache-key strings. -/
abbrev CacheState := List (String × CacheValue)

def cacheGet (c : CacheState) (k : String) : Option CacheValue :=
  (c.find? (fun p => p.1 == k)).map (·.2)

def cacheDel (c : CacheState) (k : String) : CacheState :=
  c.filter (fun p => p.1 != k)

def cacheSet (c : CacheState) (k : String) (v : CacheValue) : CacheState :=
  (k, v) :: cacheDel c k

/-- Delete a list of keys one after the other. -/
def delAll (ks : List String) (c : CacheState) : CacheState :=
  ks.foldl (fun acc k => cacheDel acc k) c

/-- The decorator state: the backing storage plus the injected cache. -/
structure DecoratorState where
  backing : Backing
  cache : CacheState
deriving DecidableEq, Repr

/-- The three per-file cache keys deleted by `deleteFileCache`. -/
def deleteFileCacheKeys (library : LibraryName) (filename : String) : List String :=
  [getCacheKeyForFile library filename JSON_CACHE_KEY,
   getCacheKeyForFile library filename STRING_CACHE_KEY,
   getCacheKeyForFile library filename FILE_EXISTS_CACHE_KEY]

/-! Part: Decorator write operations -/
/-- The write operations of `CachedLibraryStorage`. -/
inductive WriteOp
  | addFile (library : LibraryName) (filename content : String)
  | addLibrary (libraryData : LibraryMetadata) (restricted : Bool)
  | clearFiles (library : LibraryName)
  | deleteLibrary (library : LibraryName)
  | updateLibrary (libraryMetadata : LibraryMetadata)
  | updateAdditionalMetadata (library : LibraryName) (restricted : Bool)
deriving DecidableEq, Repr

/-- The cache keys each write operation deletes, in source order. For
`clearFiles`/`deleteLibrary` the file list is read from the backing storage
*before* the write, as in the source. -/
def invalidatedKeys : WriteOp → Backing → List String
  | .addFile lib fn _, _ => deleteFileCacheKeys lib fn
  | .addLibrary md _, _ =>
      [INSTALLED_LIBRARY_NAMES_CACHE_KEY, ADDONS_CACHE_KEY,
       getCacheKeyForMetadata md.name LIBRARY_IS_INSTALLED_CACHE_KEY,
       getCacheKeyForLibraryListByMachineName md.machineName]
  | .clearFiles lib, b => (listFiles b lib).flatMap (deleteFileCacheKeys lib)
  | .deleteLibrary lib, b =>
      (listFiles b lib).flatMap (deleteFileCacheKeys lib)
        ++ [getCacheKeyForMetadata lib METADATA_CACHE_KEY,
            getCacheKeyForMetadata lib LANGUAGES_CACHE_KEY,
            getCacheKeyForMetadata lib LIBRARY_IS_INSTALLED_CACHE_KEY,
            INSTALLED_LIBRARY_NAMES_CACHE_KEY,
            getCacheKeyForLibraryListByMachineName lib.machineName,
            ADDONS_CACHE_KEY]
  | .updateLibrary md, _ =>
      [getCacheKeyForMetadata md.name METADATA_CACHE_KEY,
       INSTALLED_LIBRARY_NAMES_CACHE_KEY, ADDONS_CACHE_KEY,
       getCacheKeyForLibraryListByMachineName md.machineName]
  | .updateAdditionalMetadata lib _, _ => [getCacheKeyForMetadata lib METADATA_CACHE_KEY]

/-- The backing-storage effect of each write operation. -/
def backingWrite : WriteOp → Backing → Backing
  | .addFile lib fn content, b => bAddFile b lib fn content
  | .addLibrary md r, b => bAddLibrary b md r
  | .clearFiles lib, b => bClearFiles b lib
  | .deleteLibrary lib, b => bDeleteLibrary b lib
  | .updateLibrary md, b => bUpdateLibrary b md
  | .updateAdditionalMetadata lib r, b => bUpdateAdditionalMetadata b lib r

/-- A write on the decorator: the backing write, then deletion of the
invalidation keys. -/
def applyWrite (w : WriteOp) (s : DecoratorState) : DecoratorState :=
  { backing := backingWrite w s.backing,
    cache := delAll (invalidatedKeys w s.backing) s.cache }

/-! Part: Decorator read operations -/
/-- The cached read operations of `CachedLibraryStorage`. -/
inductive ReadOp
  | fileExists (library : LibraryName) (filename : String)
  | getFileAsJson (library : LibraryName) (file : String)
  | getFileAsString (library : LibraryName) (file : String)
  | getInstalledLibraryNamesAll
  | getInstalledLibraryNamesByMachine (machineName : String)
  | getLanguages (library : LibraryName)
  | getLibrary (library : LibraryName)
  | isInstalled (library : LibraryName)
  | listAddons
deriving DecidableEq, Repr

/-- The cache key each read operation is served through. -/
def readKey : ReadOp → String
  | .fileExists lib fn => getCacheKeyForFile lib fn FILE_EXISTS_CACHE_KEY
  | .getFileAsJson lib f => getCacheKeyForFile lib f JSON_CACHE_KEY
  | .getFileAsString lib f => getCacheKeyForFile lib f STRING_CACHE_KEY
  | .getInstalledLibraryNamesAll => INSTALLED_LIBRARY_NAMES_CACHE_KEY
  | .getInstalledLibraryNamesByMachine mn => getCacheKeyForLibraryListByMachineName mn
  | .getLanguages lib => getCacheKeyForMetadata lib LANGUAGES_CACHE_KEY
  | .getLibrary lib => getCacheKeyForMetadata lib METADATA_CACHE_KEY
  | .isInstalled lib => getCacheKeyForMetadata lib LIBRARY_IS_INSTALLED_CACHE_KEY
  | .listAddons => ADDONS_CACHE_KEY

/-- The value the backing storage computes for a read (`none` models a
rejected backing call, e.g. reading a missing file; rejections are
propagated and never cached). -/
def backingValue : ReadOp → Backing → Option CacheValue
  | .fileExists lib fn, b => some (.bool (lookupFile b lib fn).isSome)
  | .getFileAsJson lib f, b => (lookupFile b lib f).map .str
  | .getFileAsString lib f, b => (lookupFile b lib f).map .str
  | .getInstalledLibraryNamesAll, b => some (.names (b.libraries.map (·.1)))
  | .getInstalledLibraryNamesByMachine mn, b =>
      some (.names ((b.libraries.map (·.1)).filter (fun n => n.machineName == mn)))
  | .getLanguages lib, b =>
      if (lookupLib b lib).isSome then some (.langs (languageCodes b lib)) else none
  | .getLibrary lib, b => (lookupLib b lib).map .record
  | .isInstalled lib, b => some (.bool (lookupLib b lib).isSome)
  | .listAddons, b =>
      some (.metas (if b.hasListAddons then
        b.libraries.filterMap (fun p =>
          if p.2.metadata.isAddon then some p.2.metadata else none)
      else []))

/-- Cache `wrap(key, producer)`: serve from the cache; on a miss compute
from the backing storage and store a resolved value; propagate a rejection
without caching it. -/
def wrap (k : String) (compute : Option CacheValue) (s : DecoratorState) :
    Option CacheValue × DecoratorState :=
  match cacheGet s.cache k with
  | some v => (some v, s)
  | none =>
    match compute with
    | some v => (some v, { s with cache := cacheSet s.cache k v })
    | none => (none, s)

/-- A cached read on the decorator. `listAddons` returns `[]` directly,
without touching the cache or the backing storage, when the backing storage
does not implement the optional capability. -/
def applyRead (r : ReadOp) (s : DecoratorState) : Option CacheValue × DecoratorState :=
  match r with
  | .listAddons =>
      if s.backing.hasListAddons then
        wrap (readKey .listAddons) (backingValue .listAddons s.backing) s
      else (some (.metas []), s)
  | r => wrap (readKey r) (backingValue r s.backing) s

/-! Part: Event traces of the write methods (for the ordering property) -/
/-- Events a decorator write method performs, in program order. -/
inductive CacheEvent
  | beginWrite
  | endWrite
  | del (k : String)
  | otherBacking
deriving DecidableEq, Repr

/-- Is the event a cache invalidation? -/
def CacheEvent.isDel : CacheEvent → Bool
  | .del _ => true
  | _ => false

/-- The sequence of backing-storage and cache operations each decorator
write method performs, in source order. `beginWrite` is the backing write
call, `endWrite` its awaited completion, `otherBacking` the awaited
preliminary `listFiles` call of `clearFiles`/`deleteLibrary`. In
`addLibrary` the backing write is started without `await`; its promise is
only adopted at the final `return result`, after the cache deletions. -/
def writeEvents (w : WriteOp) (b : Backing) : List CacheEvent :=
  match w with
  | .addLibrary _ _ =>
      .beginWrite :: ((invalidatedKeys w b).map .del ++ [.endWrite])
  | .clearFiles _ =>
      .otherBacking :: .beginWrite :: .endWrite :: (invalidatedKeys w b).map .del
  | .deleteLibrary _ =>
      .otherBacking :: .beginWrite :: .endWrite :: (invalidatedKeys w b).map .del
  | _ => .beginWrite :: .endWrite :: (invalidatedKeys w b).map .del

/-- In the trace, the backing write's completion precedes every cache
invalidation. -/
def writeCompletesBeforeInvalidation (t : List CacheEvent) : Prop :=
  ∀ i < t.length, (t.getD i .otherBacking).isDel = true →
    ∃ j < i, t.getD j .otherBacking = .endWrite

instance (t : List CacheEvent) : Decidable (writeCompletesBeforeInvalidation t) := by
  unfold writeCompletesBeforeInvalidation
  infer_instance

/-- The one invalidation gap the code has: a file-level write (`addFile` /
`clearFiles`) does not invalidate the per-library language cache of the same
identity, although adding or clearing `language/<code>.json` files changes
what `getLanguages` returns. -/
def exceptionPair : WriteOp → ReadOp → Prop
  | .addFile lib _ _, .getLanguages lib' => lib = lib'
  | .clearFiles lib, .getLanguages lib' => lib = lib'
  | _, _ => False

/-! Part: Read-after-write -/
/-- The cache is consistent with the backing storage: every cached entry at
a read's key equals the value the backing storage currently computes for
that read. (The decorator never caches a rejected read, so a key whose
backing read rejects has no entry.) An empty cache is trivially consistent. -/
def consistentCache (s : DecoratorState) : Prop :=
  ∀ (r : ReadOp) (v : CacheValue),
    cacheGet s.cache (readKey r) = some v → backingValue r s.backing = some v

end CachedLibraryStorage

/-! Part: Path segments (shared by the library manager's glob and the
package pipeline's normalization) -/
/-- Split a character list into its `/`-separated segments. -/
def splitSegs : List Char → List (List Char)
  | [] => [[]]
  | c :: rest =>
    let r := splitSegs rest
    if c = '/' then [] :: r
    else
      match r with
      | seg :: ss => (c :: seg) :: ss
      | [] => [[c]]

namespace LibraryManager

/-- An installed-library record held by the backing storage
(`IInstalledLibrary`): metadata, the storage-assigned id, `restricted`. -/
structure LMRecord where
  metadata : LibraryMetadata
  id : Nat
  restricted : Bool
deriving DecidableEq, Repr

/-- The errors the library manager throws, carrying the data their
messages are built from. -/
inductive LMError
  | notInstalled (library : LibraryName)
  | libraryJsonNotReadable (library : LibraryName)
  | filesMissing (library : LibraryName) (missing : List String)
  | storageError (library : LibraryName) (file : String)
deriving DecidableEq, Repr

/-- Modelled from the spec: the backing `ILibraryStorage` collaborator used
by `LibraryManager` (spec §6: `installLibrary`, `removeLibrary`,
`updateLibrary`, `clearLibraryFiles`/`clearFiles`, `addLibraryFile`,
`fileExists`, `getId`) is not under src/. It is modelled as in-memory maps;
`failsOn` is the set of (identity, path) writes the opaque storage layer
rejects, modelling storage errors during copying; ids are assigned from
`nextId` starting at 1; the metadata passed to `installLibrary`/
`updateLibrary` is persisted in the record and read back as the library's
`library.json`. -/
structure LMStorage where
  libraries : List (LibraryName × LMRecord)
  files : List ((LibraryName × String) × String)
  failsOn : List (LibraryName × String)
  nextId : Nat
deriving DecidableEq, Repr

/-- Look up the installed record of an identity. -/
def stLookup (s : LMStorage) (lib : LibraryName) : Option LMRecord :=
  (s.libraries.find? (fun p => p.1 == lib)).map (·.2)

/-- Storage `getId`: the id of the installed library, `none` (JS
`undefined`) when the identity is not installed. -/
def stGetId (s : LMStorage) (lib : LibraryName) : Option Nat :=
  (stLookup s lib).map (·.id)

/-- JS truthiness of a `getId` result (`undefined` and `0` are falsy). -/
def truthyId (o : Option Nat) : Bool :=
  match o with
  | none => false
  | some n => n != 0

/-- Storage `fileExists`. -/
def stFileExists (s : LMStorage) (lib : LibraryName) (fn : String) : Bool :=
  (s.files.find? (fun p => p.1 == (lib, fn))).isSome

/-- Storage `installLibrary`: create the record (with a fresh id) for the
identity and return it. -/
def stInstallLibrary (s : LMStorage) (md : LibraryMetadata) (restricted : Bool) :
    LMRecord × LMStorage :=
  (⟨md, s.nextId + 1, restricted⟩,
   { s with
     libraries := (md.name, ⟨md, s.nextId + 1, restricted⟩) :: s.libraries,
     nextId := s.nextId + 1 })

/-- Storage `removeLibrary`: remove the identity's record and files. -/
def stRemoveLibrary (s : LMStorage) (lib : LibraryName) : LMStorage :=
  { s with
    libraries := s.libraries.filter (fun p => p.1 != lib),
    files := s.files.filter (fun p => p.1.1 != lib) }

/-- Storage `updateLibrary`: persist new metadata over the existing
identity (id and restricted flag kept). -/
def stUpdateLibrary (s : LMStorage) (md : LibraryMetadata) : LMStorage :=
  { s with
    libraries := s.libraries.map (fun p =>
      if p.1 == md.name then (p.1, ⟨md, p.2.id, p.2.restricted⟩) else p) }

/-- Storage `clearLibraryFiles`. -/
def stClearLibraryFiles (s : LMStorage) (lib : LibraryName) : LMStorage :=
  { s with files := s.files.filter (fun p => p.1.1 != lib) }

/-- Storage `addLibraryFile` — rejected when the opaque storage layer fails
on this write. -/
def stAddLibraryFile (s : LMStorage) (lib : LibraryName) (fn content : String) :
    Except LMError LMStorage :=
  if (lib, fn) ∈ s.failsOn then .error (.storageError lib fn)
  else .ok { s with
    files := ((lib, fn), content) :: s.files.filter (fun p => p.1 != (lib, fn)) }

/-- Does a relative path match the glob `` `${fromDirectory}/**/*.*` `` of
`copyLibraryFiles` (node-glob semantics for this pattern: no path segment
may start with a dot, and the basename must contain a dot — a file like
`LICENSE` does not match)? -/
def matchesCopyGlob (p : String) : Bool :=
  let segs := splitSegs p.data
  segs.all (fun seg =>
    match seg with
    | [] => false
    | c :: _ => c != '.')
    && (segs.getLastD []).contains '.'

/-- The loop of `copyLibraryFiles` over the globbed files: skip
`library.json`, add every other file to the storage. `Promise.all` is
modelled sequentially: the first rejected write is reported, with the
writes already performed kept — the caller rolls back. -/
def copyGo (libraryInfo : LibraryName) :
    List (String × String) → LMStorage → Option LMError × LMStorage
  | [], s => (none, s)
  | (p, c) :: rest, s =>
    if p == "library.json" then copyGo libraryInfo rest s
    else
      match stAddLibraryFile s libraryInfo p c with
      | .error e => (some e, s)
      | .ok s2 => copyGo libraryInfo rest s2

/-- Source `copyLibraryFiles`: copy all files of the directory matching the
`**/*.*` glob, except `library.json`, to the storage. A directory is a
list of (relative path, content) pairs. -/
def copyLibraryFiles (fromDirectory : List (String × String))
    (libraryInfo : LibraryName) (s : LMStorage) : Option LMError × LMStorage :=
  copyGo libraryInfo (fromDirectory.filter (fun pc => matchesCopyGlob pc.1)) s

/-- Source `checkFiles`: collect **all** files of the list that are missing from
the library in storage; when any are missing, throw an error enumerating
each of them. -/
def checkFiles (s : LMStorage) (library : LibraryName) (requiredFiles : List String) :
    Except LMError Bool :=
  let missingFiles := requiredFiles.filter (fun f => !stFileExists s library f)
  if missingFiles.isEmpty then .ok true
  else .error (.filesMissing library missingFiles)

/-- The message built for a `checkFiles` failure: every missing file is
listed, one `"<file> is missing."` line each. -/
def checkFilesMessage (library : LibraryName) (missingFiles : List String) : String :=
  "Error(s) in library " ++ LibraryName.toUberName library ++ ":\n"
    ++ String.intercalate "\n" (missingFiles.map (fun file => file ++ " is missing."))

/-- Source `checkConsistency`: require the library installed (JS-truthy `getId`),
read its metadata back, then check the `preloadedJs` list and — only if
that first check passed — the `preloadedCss` list. -/
def checkConsistency (library : LibraryName) (s : LMStorage) : Except LMError Bool :=
  if !truthyId (stGetId s library) then .error (.notInstalled library)
  else
    match stLookup s library with
    | none => .error (.libraryJsonNotReadable library)
    | some record_ => do
        let _ ← checkFiles s library (record_.metadata.preloadedJs)
        let _ ← checkFiles s library (record_.metadata.preloadedCss)
        return true

/-- Source `LibraryManager.installLibrary`: reserve the identity in storage, copy
the files, run the consistency check; on any failure in copy or check,
remove the just-created library entirely from storage and propagate the
error. -/
def installLibrary (fromDirectory : List (String × String))
    (libraryMetadata : LibraryMetadata) (restricted : Bool) (s : LMStorage) :
    Except LMError LMRecord × LMStorage :=
  let newLibraryInfo := (stInstallLibrary s libraryMetadata restricted).1
  let s1 := (stInstallLibrary s libraryMetadata restricted).2
  match copyLibraryFiles fromDirectory libraryMetadata.name s1 with
  | (some e, sP) => (.error e, stRemoveLibrary sP libraryMetadata.name)
  | (none, s2) =>
    match checkConsistency libraryMetadata.name s2 with
    | .error e => (.error e, stRemoveLibrary s2 libraryMetadata.name)
    | .ok _ => (.ok newLibraryInfo, s2)

/-- Source `LibraryManager.updateLibrary`: persist the new metadata, clear the
previously stored files, copy the new files, run the consistency check; on
failure remove the library identity entirely (including the previously
working version) and propagate the error. -/
def updateLibrary (newLibraryMetadata : LibraryMetadata)
    (filesDirectory : List (String × String)) (s : LMStorage) :
    Except LMError Unit × LMStorage :=
  let s1 := stUpdateLibrary s newLibraryMetadata
  let s2 := stClearLibraryFiles s1 newLibraryMetadata.name
  match copyLibraryFiles filesDirectory newLibraryMetadata.name s2 with
  | (some e, sP) => (.error e, stRemoveLibrary sP newLibraryMetadata.name)
  | (none, s3) =>
    match checkConsistency newLibraryMetadata.name s3 with
    | .error e => (.error e, stRemoveLibrary s3 newLibraryMetadata.name)
    | .ok _ => (.ok (), s3)

/-- The installed versions of a machine name (`getInstalled([machineName])`
flattened to the records). -/
def installedOfMachineName (s : LMStorage) (machineName : String) : List LMRecord :=
  s.libraries.filterMap (fun p =>
    if p.1.machineName == machineName then some p.2 else none)

/-- Source `isPatchedLibrary`: among the installed versions of the machine name,
find the one with matching major/minor; the candidate is a patch iff its
patch version is strictly greater. -/
def isPatchedLibrary (library : LibraryMetadata) (s : LMStorage) : Bool :=
  match (installedOfMachineName s library.machineName).find? (fun r =>
      r.metadata.majorVersion == library.majorVersion
        && r.metadata.minorVersion == library.minorVersion) with
  | some r => r.metadata.patchVersion < library.patchVersion
  | none => false

/-- Source `installFromDirectory` (`newLibraryMetadata` stands for the parsed
content of the directory's `library.json`): if the identity is installed
(JS-truthy `getId`), update when the candidate is a patch, otherwise do
nothing and return `false`; install fresh when not installed. -/
def installFromDirectory (newLibraryMetadata : LibraryMetadata)
    (directory : List (String × String)) (restricted : Bool) (s : LMStorage) :
    Except LMError Bool × LMStorage :=
  if truthyId (stGetId s newLibraryMetadata.name) then
    if isPatchedLibrary newLibraryMetadata s then
      ((updateLibrary newLibraryMetadata directory s).1.map (fun _ => true),
       (updateLibrary newLibraryMetadata directory s).2)
    else (.ok false, s)
  else
    ((installLibrary directory newLibraryMetadata restricted s).1.map (fun _ => true),
     (installLibrary directory newLibraryMetadata restricted s).2)

end LibraryManager

namespace PackageManager

/-- Errors of the package pipeline. -/
inductive PkgError
  | structuralError (path : String)
deriving DecidableEq, Repr

/-- One normalization step: drop empty and `.` segments; `..` pops the
previous segment unless none is left (or only `..`s are), in which case it
is kept, making the path escape its root. -/
def normStep (acc : List (List Char)) (seg : List Char) : List (List Char) :=
  if seg = [] ∨ seg = ['.'] then acc
  else if seg = ['.', '.'] then
    match acc.getLast? with
    | some l => if l = ['.', '.'] then acc ++ [seg] else acc.dropLast
    | none => acc ++ [seg]
  else acc ++ [seg]

/-- Normalize a path's segments (as `path.normalize` resolves `.`, `..`
and empty segments). -/
def normalizeSegs (segs : List (List Char)) : List (List Char) :=
  segs.foldl normStep []

/-- Does an archive entry's path escape the extraction root after
normalization (zip-slip): an absolute path, or one that still begins with
`..`? -/
def escapesRoot (p : String) : Bool :=
  match p.data with
  | '/' :: _ => true
  | l => (normalizeSegs (splitSegs l)).headD [] == ['.', '.']

/-- Modelled from the spec: `PackageValidator.validatePackage` is not under
src/ (only its caller `processPackage` is). Spec §4.1 step 1: enumerate the
archive entries, normalize each path, and reject — fatally, stopping
immediately, before any content is parsed or written — any entry whose
normalized path escapes the extraction root. The other validation steps
(size ceilings, content and library checks) do not matter for the zip-slip
claim and are not modelled. -/
def validatePackage (archive : List (String × String)) : Except PkgError Unit :=
  match archive.find? (fun entry => escapesRoot entry.1) with
  | some entry => .error (.structuralError entry.1)
  | none => .ok ()

/-- The basename of an entry path. -/
def basenameOf (p : String) : List Char := (splitSegs p.data).getLastD []

/-- Test `entry.fileName.startsWith('content/')`. -/
def startsWithContent (p : String) : Bool := p.data.take 8 == "content/".data

/-- Source `PackageManager.extractPackage`: walk the entries, skipping dot- and
underscore-basenames, and write those selected by the include flags under
the extraction directory. The result is the list of entries written. -/
def extractPackage (archive : List (String × String))
    (includeLibraries includeContent includeMetadata : Bool) : List (String × String) :=
  archive.filter (fun entry =>
    (match basenameOf entry.1 with
     | c :: _ => c != '.' && c != '_'
     | [] => true)
    && ((includeContent && startsWithContent entry.1)
      || (includeLibraries && entry.1.data.contains '/' && !startsWithContent entry.1)
      || (includeMetadata && entry.1 == "h5p.json")))

/-- Source `PackageManager.processPackage`: validate the package first — the
validator throws on a structural error, so nothing is ever extracted —
then extract into the temporary directory. The second component is the
list of files written. -/
def processPackage (archive : List (String × String))
    (installLibraries copyContent : Bool) : Except PkgError Unit × List (String × String) :=
  match validatePackage archive with
  | .error e => (.error e, [])
  | .ok _ => (.ok (), extractPackage archive installLibraries copyContent copyContent)

end PackageManager


theorem natToDecAux_fuel {fuel fuel' n : Nat} (h : n < fuel) (h' : n < fuel') :
    natToDecAux fuel n = natToDecAux fuel' n := by
  induction fuel generalizing fuel' n with
  | zero => omega
  | succ f ih =>
    cases fuel' with
    | zero => omega
    | succ f' =>
      rw [natToDecAux, natToDecAux]
      by_cases h10 : n < 10
      · simp [h10]
      · have hdiv : n / 10 < n := Nat.div_lt_self (by omega) (by omega)
        rw [if_neg h10, if_neg h10, @ih f' (n / 10) (by omega) (by omega)]

theorem natToDec_eq (n : Nat) :
    natToDec n = if n < 10 then [decDigit n] else natToDec (n / 10) ++ [decDigit (n % 10)] := by
  have hdiv : n / 10 < n ∨ n < 10 := by
    by_cases h10 : n < 10
    · exact Or.inr h10
    · exact Or.inl (Nat.div_lt_self (by omega) (by omega))
  rw [natToDec, natToDecAux]
  by_cases h10 : n < 10
  · simp [h10]
  · rw [if_neg h10, if_neg h10]
    rcases hdiv with hdiv | hdiv
    · rw [@natToDecAux_fuel n (n / 10 + 1) (n / 10) (by omega) (by omega)]
      rfl
    · omega

theorem digitVal_decDigit {r : Nat} (h : r < 10) : digitVal (decDigit r) = r := by
  interval_cases r <;> decide

theorem isDigitChar_decDigit {r : Nat} (h : r < 10) : isDigitChar (decDigit r) = true := by
  interval_cases r <;> decide

theorem natToDec_ne_nil (n : Nat) : natToDec n ≠ [] := by
  rw [natToDec_eq]
  split
  · simp
  · simp

theorem natToDec_all_digits (n : Nat) : ∀ c ∈ natToDec n, isDigitChar c = true := by
  induction n using Nat.strong_induction_on with
  | _ n ih =>
    rw [natToDec_eq]
    split
    · next h =>
      intro c hc
      simp only [List.mem_singleton] at hc
      subst hc
      exact isDigitChar_decDigit h
    · next h =>
      intro c hc
      rcases List.mem_append.mp hc with h1 | h2
      · exact ih (n / 10) (Nat.div_lt_self (by omega) (by omega)) c h1
      · simp only [List.mem_singleton] at h2
        subst h2
        exact isDigitChar_decDigit (Nat.mod_lt _ (by omega))

theorem parseDigits_append_digit (l : List Char) (c : Char) :
    parseDigits (l ++ [c]) = parseDigits l * 10 + digitVal c := by
  simp [parseDigits, List.foldl_append]

theorem parseDigits_natToDec (n : Nat) : parseDigits (natToDec n) = n := by
  induction n using Nat.strong_induction_on with
  | _ n ih =>
    rw [natToDec_eq]
    split
    · next h =>
      simp [parseDigits, digitVal_decDigit h]
    · next h =>
      rw [parseDigits_append_digit,
        ih (n / 10) (Nat.div_lt_self (by omega) (by omega)),
        digitVal_decDigit (Nat.mod_lt _ (by omega))]
      omega

/-- Decimal digits contain no whitespace, no `'-'` and no `'.'`. -/
theorem isDigitChar_props {c : Char} (h : isDigitChar c = true) :
    c.isWhitespace = false ∧ c ≠ '-' ∧ c ≠ '.' := by
  simp only [isDigitChar, Bool.and_eq_true, decide_eq_true_eq] at h
  obtain ⟨h1, h2⟩ := h
  refine ⟨?_, ?_, ?_⟩
  · by_contra hw
    rw [Bool.not_eq_false] at hw
    simp only [Char.isWhitespace, Bool.or_eq_true, decide_eq_true_eq] at hw
    rcases hw with ((hc | hc) | hc) | hc <;> subst hc <;> exact absurd h1 (by decide)
  · intro hc; subst hc; revert h1; decide
  · intro hc; subst hc; revert h1; decide

namespace LibraryName

/-! Round-trip lemmas: `fromUberName (toUberName lib)` recovers `lib` when
the machine name is nonempty and whitespace-free. -/
theorem takeWhile_all_append {p : Char → Bool} {A : List Char} (b : Char) (R : List Char)
    (hA : ∀ c ∈ A, p c = true) (hb : p b = false) :
    (A ++ b :: R).takeWhile p = A ∧ (A ++ b :: R).dropWhile p = b :: R := by
  induction A with
  | nil => simp [List.takeWhile, List.dropWhile, hb]
  | cons a A' ih =>
    have ha : p a = true := hA a (by simp)
    have ih' := ih (fun c hc => hA c (by simp [hc]))
    simp [List.takeWhile, List.dropWhile, ha, ih'.1, ih'.2]

theorem matchDigitsDotDigits_exact {M m : List Char}
    (hM : ∀ c ∈ M, isDigitChar c = true) (hMne : M ≠ [])
    (hm : ∀ c ∈ m, isDigitChar c = true) (hmne : m ≠ []) :
    matchDigitsDotDigits (M ++ '.' :: m) = some (M, m) := by
  have hdot : isDigitChar '.' = false := by decide
  have h1 := takeWhile_all_append '.' m hM hdot
  rw [matchDigitsDotDigits]
  have h2 : m.takeWhile isDigitChar = m := by
    rw [List.takeWhile_eq_self_iff]; exact hm
  simp only [h1.1, h1.2, h2, List.isEmpty_iff, hMne, hmne, if_false]

theorem tryK_zero (l : List Char) : tryK l 0 = none := by
  rw [tryK]
  split
  · next h => omega
  · rfl

theorem tryK_succeeds {mn M m : List Char}
    (hmn : ∀ c ∈ mn, c.isWhitespace = false) (hne : mn ≠ [])
    (hM : ∀ c ∈ M, isDigitChar c = true) (hMne : M ≠ [])
    (hm : ∀ c ∈ m, isDigitChar c = true) (hmne : m ≠ []) :
    tryK (mn ++ '-' :: (M ++ '.' :: m)) mn.length = some (mn, M, m) := by
  have htake : (mn ++ '-' :: (M ++ '.' :: m)).take mn.length = mn := List.take_left ..
  have hget : (mn ++ '-' :: (M ++ '.' :: m))[mn.length]? = some '-' := by
    rw [List.getElem?_append_right (le_refl _)]
    simp
  have hdrop : (mn ++ '-' :: (M ++ '.' :: m)).drop (mn.length + 1) = M ++ '.' :: m := by
    simp
  rw [tryK, if_pos]
  · rw [hdrop, matchDigitsDotDigits_exact hM hMne hm hmne, htake]
    rfl
  · refine ⟨?_, ?_, hget⟩
    · cases mn with
      | nil => exact absurd rfl hne
      | cons a t => simp
    · rw [htake]
      simp only [List.all_eq_true]
      intro c hc
      simp [hmn c hc]

theorem tryK_fails_above {mn M m : List Char}
    (hM : ∀ c ∈ M, isDigitChar c = true)
    (hm : ∀ c ∈ m, isDigitChar c = true)
    {k : Nat} (hk : mn.length < k) :
    tryK (mn ++ '-' :: (M ++ '.' :: m)) k = none := by
  rw [tryK]
  split
  · next h =>
    exfalso
    obtain ⟨-, -, h3⟩ := h
    rw [List.getElem?_append_right (Nat.le_of_lt hk)] at h3
    obtain ⟨j, hj⟩ : ∃ j, k - mn.length = j + 1 := ⟨k - mn.length - 1, by omega⟩
    rw [hj] at h3
    simp only [List.getElem?_cons_succ] at h3
    have hmem : '-' ∈ M ++ '.' :: m := List.getElem?_mem h3
    rcases List.mem_append.mp hmem with hM' | hm'
    · exact absurd rfl (isDigitChar_props (hM _ hM')).2.1
    · rcases List.mem_cons.mp hm' with hdot | hm''
      · exact absurd hdot (by decide)
      · exact absurd rfl (isDigitChar_props (hm _ hm'')).2.1
  · rfl

theorem descend_eq_of_first {l : List Char} {K : Nat}
    {r : List Char × List Char × List Char} (hK : tryK l K = some r) :
    ∀ N, K ≤ N → (∀ j, K < j → j ≤ N → tryK l j = none) → descend l N = some r := by
  intro N
  induction N with
  | zero =>
    intro hKN _
    interval_cases K
    rw [tryK_zero] at hK
    exact absurd hK (by simp)
  | succ n ih =>
    intro hKN hnone
    by_cases hEq : K = n + 1
    · subst hEq
      rw [descend, hK]
      rfl
    · have h1 : tryK l (n + 1) = none := hnone (n + 1) (by omega) (le_refl _)
      rw [descend, h1]
      simp only [Option.orElse]
      exact ih (by omega) (fun j hj1 hj2 => hnone j hj1 (by omega))

theorem tryStart_uber {mn M m : List Char}
    (hmn : ∀ c ∈ mn, c.isWhitespace = false) (hne : mn ≠ [])
    (hM : ∀ c ∈ M, isDigitChar c = true) (hMne : M ≠ [])
    (hm : ∀ c ∈ m, isDigitChar c = true) (hmne : m ≠ []) :
    tryStart (mn ++ '-' :: (M ++ '.' :: m)) = some (mn, M, m) := by
  rw [tryStart]
  refine descend_eq_of_first (tryK_succeeds hmn hne hM hMne hm hmne) _ ?_
    (fun j hj1 _ => tryK_fails_above hM hm hj1)
  simp only [List.length_append, List.length_cons]
  omega

theorem execHyphenRegex_uber {mn M m : List Char}
    (hmn : ∀ c ∈ mn, c.isWhitespace = false) (hne : mn ≠ [])
    (hM : ∀ c ∈ M, isDigitChar c = true) (hMne : M ≠ [])
    (hm : ∀ c ∈ m, isDigitChar c = true) (hmne : m ≠ []) :
    execHyphenRegex (mn ++ '-' :: (M ++ '.' :: m)) = some (mn, M, m) := by
  have h := tryStart_uber hmn hne hM hMne hm hmne
  cases mn with
  | nil => exact absurd rfl hne
  | cons a t =>
    rw [List.cons_append] at h ⊢
    rw [execHyphenRegex, h]

theorem data_toUberName (lib : LibraryName) :
    (toUberName lib).data
      = lib.machineName.data
        ++ '-' :: (natToDec lib.majorVersion ++ '.' :: natToDec lib.minorVersion) := by
  have h1 : ∀ s t : String, (s ++ t).data = s.data ++ t.data := fun _ _ => rfl
  show ((((lib.machineName ++ "-") ++ ⟨natToDec lib.majorVersion⟩) ++ ".")
      ++ ⟨natToDec lib.minorVersion⟩).data = _
  rw [h1, h1, h1, h1]
  show lib.machineName.data ++ ['-'] ++ natToDec lib.majorVersion ++ ['.']
      ++ natToDec lib.minorVersion = _
  simp [List.append_assoc]

end LibraryName

/-- C9: For every library name whose machineName is non-empty and contains
no whitespace character, and whose majorVersion and minorVersion are
nonnegative integers (`Nat`), `LibraryName.fromUberName` applied to
`LibraryName.toUberName` of that name (default hyphen option) returns an
identity with equal machineName, majorVersion and minorVersion. -/
theorem claim_C9_fromUberName_toUberName_roundtrip (lib : LibraryName)
    (h1 : lib.machineName ≠ "")
    (h2 : ∀ c ∈ lib.machineName.data, c.isWhitespace = false) :
    LibraryName.fromUberName (LibraryName.toUberName lib) = some lib := by
  have hne : lib.machineName.data ≠ [] := by
    intro hd
    exact h1 (String.ext hd)
  rw [LibraryName.fromUberName, LibraryName.data_toUberName,
    LibraryName.execHyphenRegex_uber h2 hne (natToDec_all_digits _) (natToDec_ne_nil _)
      (natToDec_all_digits _) (natToDec_ne_nil _)]
  simp only [Option.map_some']
  obtain ⟨mn, maj, minr⟩ := lib
  simp [parseDigits_natToDec]

/-! Part: Generic association-list lemmas -/
theorem find?_filter_of_false {α : Type} (l : List α) (q pr : α → Bool)
    (h : ∀ a ∈ l, q a = false → pr a = false) :
    (l.filter q).find? pr = l.find? pr := by
  induction l with
  | nil => rfl
  | cons a t ih =>
    have ih' := ih (fun x hx => h x (List.mem_cons_of_mem a hx))
    by_cases hq : q a
    · rw [List.filter_cons_of_pos hq]
      by_cases hp : pr a
      · rw [List.find?_cons_of_pos _ hp, List.find?_cons_of_pos _ hp]
      · rw [List.find?_cons_of_neg _ hp, List.find?_cons_of_neg _ hp, ih']
    · have hp : pr a = false := h a (List.mem_cons_self a t) (by simpa using hq)
      rw [List.filter_cons_of_neg hq, List.find?_cons_of_neg _ (by simp [hp]), ih']

theorem find?_filter_none {α : Type} (l : List α) (q pr : α → Bool)
    (h : ∀ a ∈ l, pr a = true → q a = false) :
    (l.filter q).find? pr = none := by
  induction l with
  | nil => rfl
  | cons a t ih =>
    have ih' := ih (fun x hx => h x (List.mem_cons_of_mem a hx))
    by_cases hq : q a
    · have hp : pr a = false := by
        by_contra hc
        rw [Bool.not_eq_false] at hc
        rw [h a (List.mem_cons_self a t) hc] at hq
        simp at hq
      rw [List.filter_cons_of_pos hq, List.find?_cons_of_neg _ (by simp [hp]), ih']
    · rw [List.filter_cons_of_neg hq, ih']

theorem find?_map_keyfix {α β : Type} [BEq α] (l : List (α × β)) (g : α × β → α × β)
    (hg : ∀ p, (g p).1 = p.1) (k : α) :
    (l.map g).find? (fun p => p.1 == k) = (l.find? (fun p => p.1 == k)).map g := by
  induction l with
  | nil => rfl
  | cons a t ih =>
    rw [List.map_cons]
    have hgk : ((g a).1 == k) = (a.1 == k) := by rw [hg]
    by_cases hp : (a.1 == k) = true
    · simp only [List.find?_cons, hgk, hp]
      rfl
    · rw [Bool.not_eq_true] at hp
      simp only [List.find?_cons, hgk, hp, ih]

theorem filterMap_filter_of_none {α β : Type} (l : List α) (q : α → Bool) (f : α → Option β)
    (h : ∀ a ∈ l, q a = false → f a = none) :
    (l.filter q).filterMap f = l.filterMap f := by
  induction l with
  | nil => rfl
  | cons a t ih =>
    have ih' := ih (fun x hx => h x (List.mem_cons_of_mem a hx))
    by_cases hq : q a
    · rw [List.filter_cons_of_pos hq, List.filterMap_cons, List.filterMap_cons]
      cases f a <;> simp [ih']
    · have hf : f a = none := h a (List.mem_cons_self a t) (by simpa using hq)
      rw [List.filter_cons_of_neg hq, List.filterMap_cons, hf, ih']

theorem filterMap_map_congr {α β : Type} (l : List α) (g : α → α) (f : α → Option β)
    (h : ∀ a ∈ l, f (g a) = f a) :
    (l.map g).filterMap f = l.filterMap f := by
  induction l with
  | nil => rfl
  | cons a t ih =>
    rw [List.map_cons, List.filterMap_cons, List.filterMap_cons,
      h a (List.mem_cons_self a t), ih (fun x hx => h x (List.mem_cons_of_mem a hx))]

theorem map_fst_map_keyfix {α β : Type} (l : List (α × β)) (g : α × β → α × β)
    (hg : ∀ p, (g p).1 = p.1) :
    (l.map g).map (·.1) = l.map (·.1) := by
  induction l with
  | nil => rfl
  | cons a t ih => simp [hg, ih]

namespace CachedLibraryStorage

/-! Part: Cache-state lemmas -/
theorem cacheGet_cacheDel (c : CacheState) (k k' : String) :
    cacheGet (cacheDel c k) k' = if k' = k then none else cacheGet c k' := by
  by_cases h : k' = k
  · subst h
    rw [if_pos rfl, cacheGet, cacheDel,
      find?_filter_none _ _ _ (fun a _ hp => by
        simp only [beq_iff_eq] at hp
        simp [hp])]
    rfl
  · rw [if_neg h, cacheGet, cacheDel,
      find?_filter_of_false _ _ _ (fun a _ hq => by
        simp only [bne, Bool.not_eq_false', beq_iff_eq] at hq
        simp only [hq, beq_eq_false_iff_ne, ne_eq]
        exact fun hc => h hc.symm), cacheGet]

theorem cacheGet_delAll (ks : List String) (c : CacheState) (k : String) :
    cacheGet (delAll ks c) k = if k ∈ ks then none else cacheGet c k := by
  induction ks generalizing c with
  | nil => simp [delAll]
  | cons a t ih =>
    rw [show delAll (a :: t) c = delAll t (cacheDel c a) from rfl, ih, cacheGet_cacheDel]
    by_cases h1 : k ∈ t
    · simp [h1]
    · by_cases h2 : k = a <;> simp [h1, h2]

theorem cache_applyWrite (w : WriteOp) (s : DecoratorState) :
    (applyWrite w s).cache = delAll (invalidatedKeys w s.backing) s.cache := rfl

/-! Part: Backing-effect lemmas -/
theorem lookupFile_bAddFile (b : Backing) (lib : LibraryName) (fn content : String)
    (lib' : LibraryName) (fn' : String) :
    lookupFile (bAddFile b lib fn content) lib' fn'
      = if (lib', fn') = (lib, fn) then some content else lookupFile b lib' fn' := by
  rw [lookupFile, bAddFile]
  by_cases h : (lib', fn') = (lib, fn)
  · rw [if_pos h]
    simp only [List.find?_cons]
    rw [show (((lib, fn), content).1 == (lib', fn')) = true by simp [h]]
    rfl
  · rw [if_neg h]
    simp only [List.find?_cons]
    rw [show (((lib, fn), content).1 == (lib', fn')) = false by
      simp only [beq_eq_false_iff_ne, ne_eq]
      exact fun hc => h hc.symm]
    rw [find?_filter_of_false _ _ _ (fun p _ hq => by
      simp only [bne, Bool.not_eq_false', beq_iff_eq] at hq
      simp only [hq, beq_eq_false_iff_ne, ne_eq]
      exact fun hc => h hc.symm)]
    rfl

theorem listFiles_bAddFile_ne (b : Backing) (lib : LibraryName) (fn content : String)
    (lib' : LibraryName) (h : lib' ≠ lib) :
    listFiles (bAddFile b lib fn content) lib' = listFiles b lib' := by
  rw [listFiles, bAddFile]
  simp only [List.filterMap_cons]
  rw [if_neg (fun hc => h ((by simpa using hc : lib = lib')).symm)]
  rw [filterMap_filter_of_none _ _ _ (fun p _ hq => by
    simp only [bne, Bool.not_eq_false', beq_iff_eq] at hq
    have : p.1.1 = lib := by rw [hq]
    simp only [this]
    rw [show (lib == lib') = false by
      simp only [beq_eq_false_iff_ne, ne_eq]
      exact fun hc => h hc.symm]
    rfl)]
  rfl

theorem lookupFile_bClearFiles (b : Backing) (lib lib' : LibraryName) (fn' : String) :
    lookupFile (bClearFiles b lib) lib' fn'
      = if lib' = lib then none else lookupFile b lib' fn' := by
  by_cases h : lib' = lib
  · rw [if_pos h, h, lookupFile, bClearFiles,
      find?_filter_none _ _ _ (fun p _ hp => by
        simp only [beq_iff_eq] at hp
        simp [hp])]
    rfl
  · rw [if_neg h, lookupFile, bClearFiles,
      find?_filter_of_false _ _ _ (fun p _ hq => by
        simp only [bne, Bool.not_eq_false', beq_iff_eq] at hq
        simp only [beq_eq_false_iff_ne, ne_eq]
        intro hc
        rw [hc] at hq
        exact h hq)]
    rfl

theorem listFiles_bClearFiles_ne (b : Backing) (lib lib' : LibraryName) (h : lib' ≠ lib) :
    listFiles (bClearFiles b lib) lib' = listFiles b lib' := by
  rw [listFiles, bClearFiles,
    filterMap_filter_of_none _ _ _ (fun p _ hq => by
      simp only [bne, Bool.not_eq_false', beq_iff_eq] at hq
      simp only [hq]
      rw [show (lib == lib') = false by
        simp only [beq_eq_false_iff_ne, ne_eq]
        exact fun hc => h hc.symm]
      rfl)]
  rfl

theorem lookupLib_bDeleteLibrary (b : Backing) (lib lib' : LibraryName) :
    lookupLib (bDeleteLibrary b lib) lib'
      = if lib' = lib then none else lookupLib b lib' := by
  by_cases h : lib' = lib
  · rw [if_pos h, h, lookupLib, bDeleteLibrary,
      find?_filter_none _ _ _ (fun p _ hp => by
        simp only [beq_iff_eq] at hp
        simp [hp])]
    rfl
  · rw [if_neg h, lookupLib, bDeleteLibrary,
      find?_filter_of_false _ _ _ (fun p _ hq => by
        simp only [bne, Bool.not_eq_false', beq_iff_eq] at hq
        simp only [hq, beq_eq_false_iff_ne, ne_eq]
        exact fun hc => h hc.symm)]
    rfl

theorem lookupFile_bDeleteLibrary (b : Backing) (lib lib' : LibraryName) (fn' : String) :
    lookupFile (bDeleteLibrary b lib) lib' fn'
      = if lib' = lib then none else lookupFile b lib' fn' := by
  by_cases h : lib' = lib
  · rw [if_pos h, h, lookupFile, bDeleteLibrary]
    rw [show ({ b with
        libraries := b.libraries.filter (fun p => p.1 != lib),
        files := b.files.filter (fun p => p.1.1 != lib) } : Backing).files
      = b.files.filter (fun p => p.1.1 != lib) from rfl]
    rw [find?_filter_none _ _ _ (fun p _ hp => by
      simp only [beq_iff_eq] at hp
      simp [hp])]
    rfl
  · rw [if_neg h, lookupFile, bDeleteLibrary]
    rw [show ({ b with
        libraries := b.libraries.filter (fun p => p.1 != lib),
        files := b.files.filter (fun p => p.1.1 != lib) } : Backing).files
      = b.files.filter (fun p => p.1.1 != lib) from rfl]
    rw [find?_filter_of_false _ _ _ (fun p _ hq => by
      simp only [bne, Bool.not_eq_false', beq_iff_eq] at hq
      simp only [beq_eq_false_iff_ne, ne_eq]
      intro hc
      rw [hc] at hq
      exact h hq)]
    rfl

theorem listFiles_bDeleteLibrary_ne (b : Backing) (lib lib' : LibraryName) (h : lib' ≠ lib) :
    listFiles (bDeleteLibrary b lib) lib' = listFiles b lib' := by
  rw [listFiles, bDeleteLibrary]
  rw [show ({ b with
      libraries := b.libraries.filter (fun p => p.1 != lib),
      files := b.files.filter (fun p => p.1.1 != lib) } : Backing).files
    = b.files.filter (fun p => p.1.1 != lib) from rfl]
  rw [filterMap_filter_of_none _ _ _ (fun p _ hq => by
    simp only [bne, Bool.not_eq_false', beq_iff_eq] at hq
    simp only [hq]
    rw [show (lib == lib') = false by
      simp only [beq_eq_false_iff_ne, ne_eq]
      exact fun hc => h hc.symm]
    rfl)]
  rfl

theorem namesBy_filter_ne (L : List (LibraryName × StoredLibrary)) (lib : LibraryName)
    (mn : String) (h : lib.machineName ≠ mn) :
    (((L.filter (fun p => p.1 != lib)).map (·.1)).filter (fun n => n.machineName == mn))
      = ((L.map (·.1)).filter (fun n => n.machineName == mn)) := by
  induction L with
  | nil => rfl
  | cons a t ih =>
    by_cases ha : a.1 = lib
    · have h1 : (a.1 != lib) = false := by simp [ha]
      have h2 : (a.1.machineName == mn) = false := by simp [ha, h]
      simp [List.filter_cons, h1, h2, ih]
    · have h1 : (a.1 != lib) = true := by simp [ha]
      simp [List.filter_cons, h1, ih]

theorem lookupLib_cons_ne (b : Backing) (entry : LibraryName × StoredLibrary)
    (lib' : LibraryName) (h : lib' ≠ entry.1) :
    (((entry :: b.libraries).find? (fun p => p.1 == lib')).map (·.2)) = lookupLib b lib' := by
  rw [List.find?_cons_of_neg _ (by
    simp only [beq_eq_false_iff_ne, ne_eq, Bool.not_eq_true]
    exact fun hc => h hc.symm)]
  rfl

theorem lookupLib_bUpdateLibrary (b : Backing) (md : LibraryMetadata) (lib' : LibraryName) :
    lookupLib (bUpdateLibrary b md) lib'
      = if lib' = md.name then
          (lookupLib b lib').map (fun r => ⟨md, r.restricted⟩)
        else lookupLib b lib' := by
  rw [lookupLib, bUpdateLibrary]
  rw [find?_map_keyfix _ _ (fun p => by split <;> rfl)]
  cases hf : b.libraries.find? (fun p => p.1 == lib') with
  | none => simp [lookupLib, hf]
  | some p =>
    have hp : p.1 = lib' := by
      have := List.find?_some hf
      simpa using this
    by_cases h : lib' = md.name
    · rw [if_pos h]
      simp only [Option.map_some', lookupLib, hf]
      rw [show (if p.1 == md.name then (p.1, (⟨md, p.2.restricted⟩ : StoredLibrary)) else p)
          = (p.1, ⟨md, p.2.restricted⟩) by
        rw [if_pos]
        simp [hp, h]]
    · rw [if_neg h]
      simp only [Option.map_some', lookupLib, hf]
      rw [show (if p.1 == md.name then (p.1, (⟨md, p.2.restricted⟩ : StoredLibrary)) else p)
          = p by
        rw [if_neg]
        simp [hp, h]]

theorem lookupLib_bUpdateAdditionalMetadata (b : Backing) (lib : LibraryName)
    (restricted : Bool) (lib' : LibraryName) :
    lookupLib (bUpdateAdditionalMetadata b lib restricted) lib'
      = if lib' = lib then
          (lookupLib b lib').map (fun r => ⟨r.metadata, restricted⟩)
        else lookupLib b lib' := by
  rw [lookupLib, bUpdateAdditionalMetadata]
  rw [find?_map_keyfix _ _ (fun p => by split <;> rfl)]
  cases hf : b.libraries.find? (fun p => p.1 == lib') with
  | none => simp [lookupLib, hf]
  | some p =>
    have hp : p.1 = lib' := by
      have := List.find?_some hf
      simpa using this
    by_cases h : lib' = lib
    · rw [if_pos h]
      simp only [Option.map_some', lookupLib, hf]
      rw [show (if p.1 == lib then (p.1, (⟨p.2.metadata, restricted⟩ : StoredLibrary)) else p)
          = (p.1, ⟨p.2.metadata, restricted⟩) by
        rw [if_pos]
        simp [hp, h]]
    · rw [if_neg h]
      simp only [Option.map_some', lookupLib, hf]
      rw [show (if p.1 == lib then (p.1, (⟨p.2.metadata, restricted⟩ : StoredLibrary)) else p)
          = p by
        rw [if_neg]
        simp [hp, h]]

theorem lookupFile_eq_none (b : Backing) (lib : LibraryName) (fn : String) :
    lookupFile b lib fn = none ↔ fn ∉ listFiles b lib := by
  rw [lookupFile, Option.map_eq_none', List.find?_eq_none, listFiles]
  constructor
  · intro h hmem
    obtain ⟨p, hp, hif⟩ := List.mem_filterMap.mp hmem
    by_cases hl : (p.1.1 == lib) = true
    · rw [if_pos hl] at hif
      simp only [beq_iff_eq] at hl
      have hkey : p.1 = (lib, fn) := by
        obtain ⟨⟨pl, pf⟩, pc⟩ := p
        simp only at hl hif ⊢
        simp only [Option.some_inj] at hif
        rw [hl, hif]
      exact h p hp (by simp [hkey])
    · rw [if_neg hl] at hif
      exact Option.noConfusion hif
  · intro h p hp hbeq
    simp only [beq_iff_eq] at hbeq
    exact h (List.mem_filterMap.mpr ⟨p, hp, by rw [hbeq]; simp⟩)

theorem isSome_map {A B : Type} (o : Option A) (f : A → B) :
    (o.map f).isSome = o.isSome := by
  cases o <;> rfl

theorem lookupLib_consEntry (b : Backing) (e : LibraryName × StoredLibrary)
    (lib' : LibraryName) (h : lib' ≠ e.1) :
    lookupLib { b with libraries := e :: b.libraries } lib' = lookupLib b lib' := by
  rw [lookupLib, lookupLib]
  simp only [List.find?_cons]
  rw [show (e.1 == lib') = false by
    simp only [beq_eq_false_iff_ne, ne_eq]
    exact fun hc => h hc.symm]

/-- If a read's key survives a write's invalidation, the value the backing
storage computes for that read is unchanged by the write (excluding the
`exceptionPair` gap). -/
theorem backingValue_unchanged (w : WriteOp) (r : ReadOp) (b : Backing) (v : CacheValue)
    (hpre : backingValue r b = some v)
    (hnk : readKey r ∉ invalidatedKeys w b)
    (hex : ¬ exceptionPair w r) :
    backingValue r (backingWrite w b) = some v := by
  cases w with
  | addFile L fn c =>
    cases r with
    | fileExists L' fn' =>
      by_cases hpair : (L', fn') = (L, fn)
      · rw [Prod.mk.injEq] at hpair
        obtain ⟨rfl, rfl⟩ := hpair
        simp [invalidatedKeys, deleteFileCacheKeys, readKey] at hnk
      · simp only [backingValue, backingWrite] at hpre ⊢
        rw [lookupFile_bAddFile, if_neg hpair]
        exact hpre
    | getFileAsJson L' fn' =>
      by_cases hpair : (L', fn') = (L, fn)
      · rw [Prod.mk.injEq] at hpair
        obtain ⟨rfl, rfl⟩ := hpair
        simp [invalidatedKeys, deleteFileCacheKeys, readKey] at hnk
      · simp only [backingValue, backingWrite] at hpre ⊢
        rw [lookupFile_bAddFile, if_neg hpair]
        exact hpre
    | getFileAsString L' fn' =>
      by_cases hpair : (L', fn') = (L, fn)
      · rw [Prod.mk.injEq] at hpair
        obtain ⟨rfl, rfl⟩ := hpair
        simp [invalidatedKeys, deleteFileCacheKeys, readKey] at hnk
      · simp only [backingValue, backingWrite] at hpre ⊢
        rw [lookupFile_bAddFile, if_neg hpair]
        exact hpre
    | getLanguages L' =>
      have hL : L' ≠ L := fun hc => hex (by rw [hc]; rfl)
      simp only [backingValue, backingWrite, languageCodes] at hpre ⊢
      rw [show lookupLib (bAddFile b L fn c) L' = lookupLib b L' from rfl,
        listFiles_bAddFile_ne b L fn c L' hL]
      exact hpre
    | getInstalledLibraryNamesAll => exact hpre
    | getInstalledLibraryNamesByMachine mn => exact hpre
    | getLibrary L' => exact hpre
    | isInstalled L' => exact hpre
    | listAddons => exact hpre
  | clearFiles L =>
    cases r with
    | fileExists L' fn' =>
      by_cases hL : L' = L
      · subst hL
        by_cases hf : fn' ∈ listFiles b L'
        · exact absurd (List.mem_flatMap.mpr ⟨fn', hf, by
            simp [deleteFileCacheKeys, readKey]⟩) hnk
        · simp only [backingValue, backingWrite] at hpre ⊢
          rw [lookupFile_bClearFiles, if_pos rfl]
          rw [(lookupFile_eq_none b L' fn').mpr hf] at hpre
          exact hpre
      · simp only [backingValue, backingWrite] at hpre ⊢
        rw [lookupFile_bClearFiles, if_neg hL]
        exact hpre
    | getFileAsJson L' fn' =>
      by_cases hL : L' = L
      · subst hL
        by_cases hf : fn' ∈ listFiles b L'
        · exact absurd (List.mem_flatMap.mpr ⟨fn', hf, by
            simp [deleteFileCacheKeys, readKey]⟩) hnk
        · simp only [backingValue] at hpre
          rw [(lookupFile_eq_none b L' fn').mpr hf] at hpre
          exact absurd hpre (by simp)
      · simp only [backingValue, backingWrite] at hpre ⊢
        rw [lookupFile_bClearFiles, if_neg hL]
        exact hpre
    | getFileAsString L' fn' =>
      by_cases hL : L' = L
      · subst hL
        by_cases hf : fn' ∈ listFiles b L'
        · exact absurd (List.mem_flatMap.mpr ⟨fn', hf, by
            simp [deleteFileCacheKeys, readKey]⟩) hnk
        · simp only [backingValue] at hpre
          rw [(lookupFile_eq_none b L' fn').mpr hf] at hpre
          exact absurd hpre (by simp)
      · simp only [backingValue, backingWrite] at hpre ⊢
        rw [lookupFile_bClearFiles, if_neg hL]
        exact hpre
    | getLanguages L' =>
      have hL : L' ≠ L := fun hc => hex (by rw [hc]; rfl)
      simp only [backingValue, backingWrite, languageCodes] at hpre ⊢
      rw [show lookupLib (bClearFiles b L) L' = lookupLib b L' from rfl,
        listFiles_bClearFiles_ne b L L' hL]
      exact hpre
    | getInstalledLibraryNamesAll => exact hpre
    | getInstalledLibraryNamesByMachine mn => exact hpre
    | getLibrary L' => exact hpre
    | isInstalled L' => exact hpre
    | listAddons => exact hpre
  | addLibrary md restr =>
    cases hL : lookupLib b md.name with
    | some q =>
      have hb : backingWrite (.addLibrary md restr) b = b := by
        rw [backingWrite, bAddLibrary, hL]
      rw [hb]
      exact hpre
    | none =>
      have hb : backingWrite (.addLibrary md restr) b
          = { b with libraries := (md.name, ⟨md, restr⟩) :: b.libraries } := by
        rw [backingWrite, bAddLibrary, hL]
      rw [hb]
      cases r with
      | fileExists L' fn' => exact hpre
      | getFileAsJson L' fn' => exact hpre
      | getFileAsString L' fn' => exact hpre
      | isInstalled L' =>
        by_cases hL' : L' = md.name
        · subst hL'
          simp [invalidatedKeys, readKey] at hnk
        · simp only [backingValue] at hpre ⊢
          rw [lookupLib_consEntry b _ L' hL']
          exact hpre
      | getLibrary L' =>
        by_cases hL' : L' = md.name
        · subst hL'
          simp only [backingValue, hL] at hpre
          exact absurd hpre (by simp)
        · simp only [backingValue] at hpre ⊢
          rw [lookupLib_consEntry b _ L' hL']
          exact hpre
      | getLanguages L' =>
        by_cases hL' : L' = md.name
        · subst hL'
          simp only [backingValue, hL] at hpre
          exact absurd hpre (by simp)
        · simp only [backingValue, languageCodes] at hpre ⊢
          rw [lookupLib_consEntry b _ L' hL']
          exact hpre
      | getInstalledLibraryNamesAll =>
        simp [invalidatedKeys, readKey] at hnk
      | getInstalledLibraryNamesByMachine mn =>
        by_cases hmn : mn = md.machineName
        · subst hmn
          simp [invalidatedKeys, readKey, getCacheKeyForLibraryListByMachineName] at hnk
        · simp only [backingValue] at hpre ⊢
          rw [List.map_cons, List.filter_cons_of_neg (by
            simp only [LibraryMetadata.name, beq_eq_false_iff_ne, ne_eq, Bool.not_eq_true]
            exact fun hc => hmn hc.symm)]
          exact hpre
      | listAddons =>
        simp [invalidatedKeys, readKey] at hnk
  | deleteLibrary L =>
    cases r with
    | fileExists L' fn' =>
      by_cases hL : L' = L
      · subst hL
        by_cases hf : fn' ∈ listFiles b L'
        · refine absurd (List.mem_append.mpr (Or.inl (List.mem_flatMap.mpr ⟨fn', hf, ?_⟩))) hnk
          simp [deleteFileCacheKeys, readKey]
        · simp only [backingValue, backingWrite] at hpre ⊢
          rw [lookupFile_bDeleteLibrary, if_pos rfl]
          rw [(lookupFile_eq_none b L' fn').mpr hf] at hpre
          exact hpre
      · simp only [backingValue, backingWrite] at hpre ⊢
        rw [lookupFile_bDeleteLibrary, if_neg hL]
        exact hpre
    | getFileAsJson L' fn' =>
      by_cases hL : L' = L
      · subst hL
        by_cases hf : fn' ∈ listFiles b L'
        · refine absurd (List.mem_append.mpr (Or.inl (List.mem_flatMap.mpr ⟨fn', hf, ?_⟩))) hnk
          simp [deleteFileCacheKeys, readKey]
        · simp only [backingValue] at hpre
          rw [(lookupFile_eq_none b L' fn').mpr hf] at hpre
          exact absurd hpre (by simp)
      · simp only [backingValue, backingWrite] at hpre ⊢
        rw [lookupFile_bDeleteLibrary, if_neg hL]
        exact hpre
    | getFileAsString L' fn' =>
      by_cases hL : L' = L
      · subst hL
        by_cases hf : fn' ∈ listFiles b L'
        · refine absurd (List.mem_append.mpr (Or.inl (List.mem_flatMap.mpr ⟨fn', hf, ?_⟩))) hnk
          simp [deleteFileCacheKeys, readKey]
        · simp only [backingValue] at hpre
          rw [(lookupFile_eq_none b L' fn').mpr hf] at hpre
          exact absurd hpre (by simp)
      · simp only [backingValue, backingWrite] at hpre ⊢
        rw [lookupFile_bDeleteLibrary, if_neg hL]
        exact hpre
    | getLanguages L' =>
      by_cases hL : L' = L
      · subst hL
        refine absurd (List.mem_append.mpr (Or.inr ?_)) hnk
        simp [readKey]
      · simp only [backingValue, backingWrite, languageCodes] at hpre ⊢
        rw [lookupLib_bDeleteLibrary, if_neg hL, listFiles_bDeleteLibrary_ne b L L' hL]
        exact hpre
    | getLibrary L' =>
      by_cases hL : L' = L
      · subst hL
        refine absurd (List.mem_append.mpr (Or.inr ?_)) hnk
        simp [readKey]
      · simp only [backingValue, backingWrite] at hpre ⊢
        rw [lookupLib_bDeleteLibrary, if_neg hL]
        exact hpre
    | isInstalled L' =>
      by_cases hL : L' = L
      · subst hL
        refine absurd (List.mem_append.mpr (Or.inr ?_)) hnk
        simp [readKey]
      · simp only [backingValue, backingWrite] at hpre ⊢
        rw [lookupLib_bDeleteLibrary, if_neg hL]
        exact hpre
    | getInstalledLibraryNamesAll =>
      refine absurd (List.mem_append.mpr (Or.inr ?_)) hnk
      simp [readKey]
    | getInstalledLibraryNamesByMachine mn =>
      by_cases hmn : mn = L.machineName
      · subst hmn
        refine absurd (List.mem_append.mpr (Or.inr ?_)) hnk
        simp [readKey, getCacheKeyForLibraryListByMachineName]
      · simp only [backingValue, backingWrite, bDeleteLibrary] at hpre ⊢
        rw [namesBy_filter_ne b.libraries L mn (fun hc => hmn hc.symm)]
        exact hpre
    | listAddons =>
      refine absurd (List.mem_append.mpr (Or.inr ?_)) hnk
      simp [readKey]
  | updateLibrary md =>
    cases r with
    | fileExists L' fn' => exact hpre
    | getFileAsJson L' fn' => exact hpre
    | getFileAsString L' fn' => exact hpre
    | getLibrary L' =>
      by_cases hL : L' = md.name
      · subst hL
        simp [invalidatedKeys, readKey] at hnk
      · simp only [backingValue, backingWrite] at hpre ⊢
        rw [lookupLib_bUpdateLibrary, if_neg hL]
        exact hpre
    | isInstalled L' =>
      simp only [backingValue, backingWrite] at hpre ⊢
      rw [lookupLib_bUpdateLibrary]
      by_cases hL : L' = md.name
      · rw [if_pos hL, isSome_map]
        exact hpre
      · rw [if_neg hL]
        exact hpre
    | getLanguages L' =>
      simp only [backingValue, backingWrite, languageCodes] at hpre ⊢
      rw [show listFiles (bUpdateLibrary b md) L' = listFiles b L' from rfl,
        lookupLib_bUpdateLibrary]
      by_cases hL : L' = md.name
      · rw [if_pos hL, isSome_map]
        exact hpre
      · rw [if_neg hL]
        exact hpre
    | getInstalledLibraryNamesAll =>
      simp [invalidatedKeys, readKey] at hnk
    | getInstalledLibraryNamesByMachine mn =>
      by_cases hmn : mn = md.machineName
      · subst hmn
        simp [invalidatedKeys, readKey, getCacheKeyForLibraryListByMachineName] at hnk
      · simp only [backingValue, backingWrite, bUpdateLibrary] at hpre ⊢
        rw [map_fst_map_keyfix _ _ (fun p => by split <;> rfl)]
        exact hpre
    | listAddons =>
      simp [invalidatedKeys, readKey] at hnk
  | updateAdditionalMetadata L restr =>
    cases r with
    | fileExists L' fn' => exact hpre
    | getFileAsJson L' fn' => exact hpre
    | getFileAsString L' fn' => exact hpre
    | getLibrary L' =>
      by_cases hL : L' = L
      · subst hL
        simp [invalidatedKeys, readKey] at hnk
      · simp only [backingValue, backingWrite] at hpre ⊢
        rw [lookupLib_bUpdateAdditionalMetadata, if_neg hL]
        exact hpre
    | isInstalled L' =>
      simp only [backingValue, backingWrite] at hpre ⊢
      rw [lookupLib_bUpdateAdditionalMetadata]
      by_cases hL : L' = L
      · rw [if_pos hL, isSome_map]
        exact hpre
      · rw [if_neg hL]
        exact hpre
    | getLanguages L' =>
      simp only [backingValue, backingWrite, languageCodes] at hpre ⊢
      rw [show listFiles (bUpdateAdditionalMetadata b L restr) L' = listFiles b L' from rfl,
        lookupLib_bUpdateAdditionalMetadata]
      by_cases hL : L' = L
      · rw [if_pos hL, isSome_map]
        exact hpre
      · rw [if_neg hL]
        exact hpre
    | getInstalledLibraryNamesAll =>
      simp only [backingValue, backingWrite, bUpdateAdditionalMetadata] at hpre ⊢
      rw [map_fst_map_keyfix _ _ (fun p => by split <;> rfl)]
      exact hpre
    | getInstalledLibraryNamesByMachine mn =>
      simp only [backingValue, backingWrite, bUpdateAdditionalMetadata] at hpre ⊢
      rw [map_fst_map_keyfix _ _ (fun p => by split <;> rfl)]
      exact hpre
    | listAddons =>
      simp only [backingValue, backingWrite, bUpdateAdditionalMetadata] at hpre ⊢
      rw [filterMap_map_congr _ _ _ (fun p _ => by split <;> rfl)]
      exact hpre

/-! Part: Read-path lemmas -/
theorem wrap_fst_of_none {k : String} {compute : Option CacheValue} {s : DecoratorState}
    (h : cacheGet s.cache k = none) : (wrap k compute s).1 = compute := by
  rw [wrap.eq_def, h]
  cases compute <;> rfl

theorem wrap_fst_of_some {k : String} {compute : Option CacheValue} {s : DecoratorState}
    {v : CacheValue} (h : cacheGet s.cache k = some v) : (wrap k compute s).1 = some v := by
  rw [wrap.eq_def, h]

/-- A read whose key is not cached returns the value the backing storage
computes. -/
theorem applyRead_fresh (r : ReadOp) (s : DecoratorState)
    (h : cacheGet s.cache (readKey r) = none) :
    (applyRead r s).1 = backingValue r s.backing := by
  cases r with
  | listAddons =>
    rw [show applyRead .listAddons s
        = if s.backing.hasListAddons then
            wrap (readKey .listAddons) (backingValue .listAddons s.backing) s
          else (some (.metas []), s) from rfl]
    by_cases hcap : s.backing.hasListAddons
    · rw [if_pos hcap]
      exact wrap_fst_of_none h
    · rw [if_neg hcap]
      rw [Bool.not_eq_true] at hcap
      rw [show backingValue .listAddons s.backing
          = some (.metas (if s.backing.hasListAddons then
              s.backing.libraries.filterMap (fun p =>
                if p.2.metadata.isAddon then some p.2.metadata else none)
            else [])) from rfl, hcap]
      rfl
  | fileExists lib fn => exact wrap_fst_of_none h
  | getFileAsJson lib f => exact wrap_fst_of_none h
  | getFileAsString lib f => exact wrap_fst_of_none h
  | getInstalledLibraryNamesAll => exact wrap_fst_of_none h
  | getInstalledLibraryNamesByMachine mn => exact wrap_fst_of_none h
  | getLanguages lib => exact wrap_fst_of_none h
  | getLibrary lib => exact wrap_fst_of_none h
  | isInstalled lib => exact wrap_fst_of_none h

/-- A read whose key is cached with the value the backing storage would
compute returns that value. -/
theorem applyRead_hit (r : ReadOp) (s : DecoratorState) (v : CacheValue)
    (hc : cacheGet s.cache (readKey r) = some v)
    (hb : backingValue r s.backing = some v) :
    (applyRead r s).1 = some v := by
  cases r with
  | listAddons =>
    rw [show applyRead .listAddons s
        = if s.backing.hasListAddons then
            wrap (readKey .listAddons) (backingValue .listAddons s.backing) s
          else (some (.metas []), s) from rfl]
    by_cases hcap : s.backing.hasListAddons
    · rw [if_pos hcap]
      exact wrap_fst_of_some hc
    · rw [if_neg hcap]
      rw [Bool.not_eq_true] at hcap
      rw [show backingValue .listAddons s.backing
          = some (.metas (if s.backing.hasListAddons then
              s.backing.libraries.filterMap (fun p =>
                if p.2.metadata.isAddon then some p.2.metadata else none)
            else [])) from rfl, hcap] at hb
      exact hb
  | fileExists lib fn => exact wrap_fst_of_some hc
  | getFileAsJson lib f => exact wrap_fst_of_some hc
  | getFileAsString lib f => exact wrap_fst_of_some hc
  | getInstalledLibraryNamesAll => exact wrap_fst_of_some hc
  | getInstalledLibraryNamesByMachine mn => exact wrap_fst_of_some hc
  | getLanguages lib => exact wrap_fst_of_some hc
  | getLibrary lib => exact wrap_fst_of_some hc
  | isInstalled lib => exact wrap_fst_of_some hc

/-- Read-after-write: on a consistent state, any cached read performed after
a write returns the value the backing storage computes after the write —
except for the `exceptionPair` gap. -/
theorem read_after_write (s : DecoratorState) (w : WriteOp) (r : ReadOp)
    (hcons : consistentCache s) (hex : ¬ exceptionPair w r) :
    (applyRead r (applyWrite w s)).1 = backingValue r (applyWrite w s).backing := by
  cases hget : cacheGet (applyWrite w s).cache (readKey r) with
  | none => exact applyRead_fresh r _ hget
  | some v =>
    rw [cache_applyWrite, cacheGet_delAll] at hget
    by_cases hmem : readKey r ∈ invalidatedKeys w s.backing
    · rw [if_pos hmem] at hget
      exact Option.noConfusion hget
    · rw [if_neg hmem] at hget
      have hpre := hcons r v hget
      have hpost : backingValue r (applyWrite w s).backing = some v :=
        backingValue_unchanged w r s.backing v hpre hmem hex
      rw [hpost]
      exact applyRead_hit r _ v
        (by rw [cache_applyWrite, cacheGet_delAll, if_neg hmem]; exact hget) hpost

/-! Part: Cache-key shape lemmas -/
theorem data_getCacheKeyForFile (lib : LibraryName) (f u : String) :
    (getCacheKeyForFile lib f u).data
      = (LibraryName.toUberName lib).data ++ '/' :: (f.data ++ '-' :: u.data) := by
  have h1 : ∀ s t : String, (s ++ t).data = s.data ++ t.data := fun _ _ => rfl
  show ((((LibraryName.toUberName lib ++ "/") ++ f) ++ "-") ++ u).data = _
  rw [h1, h1, h1, h1]
  show (LibraryName.toUberName lib).data ++ ['/'] ++ f.data ++ ['-'] ++ u.data = _
  simp [List.append_assoc]

theorem data_getCacheKeyForMetadata (lib : LibraryName) (u : String) :
    (getCacheKeyForMetadata lib u).data
      = (LibraryName.toUberName lib).data ++ '-' :: u.data := by
  have h1 : ∀ s t : String, (s ++ t).data = s.data ++ t.data := fun _ _ => rfl
  show (((LibraryName.toUberName lib ++ "-") ++ u)).data = _
  rw [h1, h1]
  show (LibraryName.toUberName lib).data ++ ['-'] ++ u.data = _
  simp [List.append_assoc]

/-! Part: Claims about the cached library storage -/
/-- C2, amended: For every write operation on Cached Library Storage
whose cache is consistent with the backing storage, followed by a read whose
key that write could render stale, the read returns the post-write value —
**except** that the file-level writes `addFile` and `clearFiles` do not
invalidate the per-library language cache of the same identity, so a
`getLanguages` read after such a write may return the pre-write cached
value. All other write/read pairs are fresh (the theorem quantifies over
all cached reads, invalidated or not). -/
theorem claim_C2_read_after_write (s : DecoratorState) (w : WriteOp) (r : ReadOp)
    (hcons : consistentCache s) (hex : ¬ exceptionPair w r) :
    (applyRead r (applyWrite w s)).1 = backingValue r (applyWrite w s).backing :=
  read_after_write s w r hcons hex

/-- C2, counterexample: Concrete run refuting the claim as stated:
install `H5P.Test 1.0` with a `language/en.json` file, read `getLanguages`
once (caching `["en"]`), then write `addFile language/de.json` — a write
that renders the language cache of this identity stale — and read
`getLanguages` again: the read returns the pre-write cached `["en"]`, not
the post-write value `["de", "en"]`. -/
theorem claim_C2_counterexample :
    (applyRead (.getLanguages ⟨"H5P.Test", 1, 0⟩)
        (applyWrite (.addFile ⟨"H5P.Test", 1, 0⟩ "language/de.json" "de")
          ((applyRead (.getLanguages ⟨"H5P.Test", 1, 0⟩)
            ⟨⟨[(⟨"H5P.Test", 1, 0⟩,
                ⟨⟨"H5P.Test", 1, 0, 1, false, [], [], false⟩, false⟩)],
               [((⟨"H5P.Test", 1, 0⟩, "language/en.json"), "en")], true⟩, []⟩).2))).1
      = some (.langs ["en"])
    ∧ backingValue (.getLanguages ⟨"H5P.Test", 1, 0⟩)
        (applyWrite (.addFile ⟨"H5P.Test", 1, 0⟩ "language/de.json" "de")
          ((applyRead (.getLanguages ⟨"H5P.Test", 1, 0⟩)
            ⟨⟨[(⟨"H5P.Test", 1, 0⟩,
                ⟨⟨"H5P.Test", 1, 0, 1, false, [], [], false⟩, false⟩)],
               [((⟨"H5P.Test", 1, 0⟩, "language/en.json"), "en")], true⟩, []⟩).2)).backing
      = some (.langs ["de", "en"])
    ∧ (some (CacheValue.langs ["en"]) : Option CacheValue) ≠ some (.langs ["de", "en"]) := by
  refine ⟨?_, ?_, ?_⟩ <;> decide

/-- Witness for C2 at a concrete consistent state (empty cache), a concrete
write and a concrete non-excepted read. -/
theorem claim_C2_witness :
    consistentCache ⟨⟨[], [], false⟩, []⟩
    ∧ ¬ exceptionPair (.addFile ⟨"H5P.A", 1, 0⟩ "a.js" "x")
        (.fileExists ⟨"H5P.A", 1, 0⟩ "a.js")
    ∧ (applyRead (.fileExists ⟨"H5P.A", 1, 0⟩ "a.js")
        (applyWrite (.addFile ⟨"H5P.A", 1, 0⟩ "a.js" "x") ⟨⟨[], [], false⟩, []⟩)).1
      = backingValue (.fileExists ⟨"H5P.A", 1, 0⟩ "a.js")
        (applyWrite (.addFile ⟨"H5P.A", 1, 0⟩ "a.js" "x") ⟨⟨[], [], false⟩, []⟩).backing :=
  ⟨fun _ _ h => Option.noConfusion h,
   fun h => h,
   claim_C2_read_after_write ⟨⟨[], [], false⟩, []⟩ _ _
     (fun _ _ h => Option.noConfusion h) (fun h => h)⟩

/-- C5, code bug: In `CachedLibraryStorage.addLibrary` the backing
write is started without `await` (`const result = this.storage.addLibrary(…)`),
so the four `cache.del` invalidations begin before the backing write's
completion is awaited — the promise is only adopted at the final
`return result`. The trace of `addLibrary` therefore violates
"the write to the backing storage completes before any cache invalidation
begins", which every other write method satisfies. -/
theorem claim_C5_addLibrary_invalidates_before_write_completes :
    ¬ writeCompletesBeforeInvalidation
        (writeEvents (.addLibrary (⟨"H5P.Test", 1, 0, 1, false, [], [], false⟩ : LibraryMetadata)
          false) ⟨[], [], false⟩) := by
  decide

/-- C6: Cache-key construction is deterministic — keys depend only on
the identity fields, the filename and the operation tag — and distinct
cached operations on the same library or the same library file have
distinct keys: distinct tags give distinct per-file keys and distinct
per-library keys, and a per-file key never equals a per-library key. -/
theorem claim_C6_cache_keys (lib lib' : LibraryName) (f u u' : String) :
    (lib.machineName = lib'.machineName → lib.majorVersion = lib'.majorVersion →
      lib.minorVersion = lib'.minorVersion →
      getCacheKeyForFile lib f u = getCacheKeyForFile lib' f u
        ∧ getCacheKeyForMetadata lib u = getCacheKeyForMetadata lib' u)
    ∧ (u ≠ u' → getCacheKeyForFile lib f u ≠ getCacheKeyForFile lib f u')
    ∧ (u ≠ u' → getCacheKeyForMetadata lib u ≠ getCacheKeyForMetadata lib u')
    ∧ getCacheKeyForFile lib f u ≠ getCacheKeyForMetadata lib u' := by
  refine ⟨?_, ?_, ?_, ?_⟩
  · intro h1 h2 h3
    obtain ⟨mn, maj, mi⟩ := lib
    obtain ⟨mn', maj', mi'⟩ := lib'
    simp only at h1 h2 h3
    subst h1; subst h2; subst h3
    exact ⟨rfl, rfl⟩
  · intro hne hc
    apply hne
    have hd := congrArg String.data hc
    rw [data_getCacheKeyForFile, data_getCacheKeyForFile] at hd
    have h2 := List.append_cancel_left hd
    have h3 := (List.cons.injEq _ _ _ _).mp h2
    have h4 := List.append_cancel_left h3.2
    have h5 := (List.cons.injEq _ _ _ _).mp h4
    exact String.ext h5.2
  · intro hne hc
    apply hne
    have hd := congrArg String.data hc
    rw [data_getCacheKeyForMetadata, data_getCacheKeyForMetadata] at hd
    have h2 := List.append_cancel_left hd
    have h3 := (List.cons.injEq _ _ _ _).mp h2
    exact String.ext h3.2
  · intro hc
    have hd := congrArg String.data hc
    rw [data_getCacheKeyForFile, data_getCacheKeyForMetadata] at hd
    have h2 := List.append_cancel_left hd
    have h3 := (List.cons.injEq _ _ _ _).mp h2
    exact absurd h3.1 (by decide)

/-- Witness for C6 at concrete inputs. -/
theorem claim_C6_witness :
    (((⟨"H5P.A", 1, 0⟩ : LibraryName).machineName = (⟨"H5P.A", 1, 0⟩ : LibraryName).machineName)
      ∧ (JSON_CACHE_KEY ≠ STRING_CACHE_KEY)
      ∧ getCacheKeyForFile ⟨"H5P.A", 1, 0⟩ "f.js" JSON_CACHE_KEY
          ≠ getCacheKeyForFile ⟨"H5P.A", 1, 0⟩ "f.js" STRING_CACHE_KEY
      ∧ getCacheKeyForMetadata ⟨"H5P.A", 1, 0⟩ METADATA_CACHE_KEY
          ≠ getCacheKeyForMetadata ⟨"H5P.A", 1, 0⟩ LANGUAGES_CACHE_KEY
      ∧ getCacheKeyForFile ⟨"H5P.A", 1, 0⟩ "f.js" JSON_CACHE_KEY
          ≠ getCacheKeyForMetadata ⟨"H5P.A", 1, 0⟩ METADATA_CACHE_KEY) :=
  ⟨rfl, by decide,
   (claim_C6_cache_keys ⟨"H5P.A", 1, 0⟩ ⟨"H5P.A", 1, 0⟩ "f.js"
     JSON_CACHE_KEY STRING_CACHE_KEY).2.1 (by decide),
   (claim_C6_cache_keys ⟨"H5P.A", 1, 0⟩ ⟨"H5P.A", 1, 0⟩ "f.js"
     METADATA_CACHE_KEY LANGUAGES_CACHE_KEY).2.2.1 (by decide),
   (claim_C6_cache_keys ⟨"H5P.A", 1, 0⟩ ⟨"H5P.A", 1, 0⟩ "f.js"
     JSON_CACHE_KEY METADATA_CACHE_KEY).2.2.2⟩

/-- C10: Calling `listAddons` on a Cached Library Storage whose backing
storage does not implement the optional `listAddons` capability returns an
empty list (and leaves the state untouched) rather than raising an error or
returning `undefined`. -/
theorem claim_C10_listAddons_without_capability (s : DecoratorState)
    (h : s.backing.hasListAddons = false) :
    applyRead .listAddons s = (some (.metas []), s) := by
  rw [show applyRead .listAddons s
      = if s.backing.hasListAddons then
          wrap (readKey .listAddons) (backingValue .listAddons s.backing) s
        else (some (.metas []), s) from rfl, h]
  rfl

/-- Witness for C10 at a concrete state. -/
theorem claim_C10_witness :
    ((⟨⟨[], [], false⟩, []⟩ : DecoratorState).backing.hasListAddons = false)
    ∧ applyRead .listAddons (⟨⟨[], [], false⟩, []⟩ : DecoratorState)
        = (some (.metas []), (⟨⟨[], [], false⟩, []⟩ : DecoratorState)) :=
  ⟨rfl, claim_C10_listAddons_without_capability ⟨⟨[], [], false⟩, []⟩ rfl⟩

end CachedLibraryStorage

namespace LibraryManager

/-! Part: Library-manager lemmas and claims -/
theorem stGetId_stRemoveLibrary (s : LMStorage) (lib : LibraryName) :
    stGetId (stRemoveLibrary s lib) lib = none := by
  rw [stGetId, stLookup, stRemoveLibrary,
    find?_filter_none _ _ _ (fun p _ hp => by
      simp only [beq_iff_eq] at hp
      simp [hp])]
  rfl

/-- C1: For every install or update where copying the library files or
the post-copy consistency check fails, the library identity is entirely
absent from storage afterwards (`getId` returns nothing) — in the update
case including the previously working version — and the error is
propagated: the failing copy's or check's error is the operation's result.
Storage never exposes a half-installed library. -/
theorem claim_C1_rollback_on_failure (dir : List (String × String))
    (md : LibraryMetadata) (restricted : Bool) (s : LMStorage) (e : LMError) :
    ((installLibrary dir md restricted s).1 = .error e →
      stGetId (installLibrary dir md restricted s).2 md.name = none)
    ∧ ((updateLibrary md dir s).1 = .error e →
      stGetId (updateLibrary md dir s).2 md.name = none)
    ∧ (∀ sP, copyLibraryFiles dir md.name (stInstallLibrary s md restricted).2 = (some e, sP) →
      (installLibrary dir md restricted s).1 = .error e)
    ∧ (∀ s2, copyLibraryFiles dir md.name (stInstallLibrary s md restricted).2 = (none, s2) →
      checkConsistency md.name s2 = .error e →
      (installLibrary dir md restricted s).1 = .error e)
    ∧ (∀ sP, copyLibraryFiles dir md.name
        (stClearLibraryFiles (stUpdateLibrary s md) md.name) = (some e, sP) →
      (updateLibrary md dir s).1 = .error e)
    ∧ (∀ s3, copyLibraryFiles dir md.name
        (stClearLibraryFiles (stUpdateLibrary s md) md.name) = (none, s3) →
      checkConsistency md.name s3 = .error e →
      (updateLibrary md dir s).1 = .error e) := by
  refine ⟨?_, ?_, ?_, ?_, ?_, ?_⟩
  · intro he
    rw [installLibrary] at he ⊢
    cases hcopy : copyLibraryFiles dir md.name (stInstallLibrary s md restricted).2 with
    | mk o sC =>
      cases o with
      | some e1 =>
        simp only [hcopy] at he ⊢
        exact stGetId_stRemoveLibrary sC md.name
      | none =>
        simp only [hcopy] at he ⊢
        cases hchk : checkConsistency md.name sC with
        | error e2 =>
          simp only [hchk] at he ⊢
          exact stGetId_stRemoveLibrary sC md.name
        | ok b =>
          simp only [hchk] at he
          exact Except.noConfusion he
  · intro he
    rw [updateLibrary] at he ⊢
    cases hcopy : copyLibraryFiles dir md.name
        (stClearLibraryFiles (stUpdateLibrary s md) md.name) with
    | mk o sC =>
      cases o with
      | some e1 =>
        simp only [hcopy] at he ⊢
        exact stGetId_stRemoveLibrary sC md.name
      | none =>
        simp only [hcopy] at he ⊢
        cases hchk : checkConsistency md.name sC with
        | error e2 =>
          simp only [hchk] at he ⊢
          exact stGetId_stRemoveLibrary sC md.name
        | ok b =>
          simp only [hchk] at he
          exact Except.noConfusion he
  · intro sP hcopy
    rw [installLibrary]
    simp only [hcopy]
  · intro s2 hcopy hchk
    rw [installLibrary]
    simp only [hcopy, hchk]
  · intro sP hcopy
    rw [updateLibrary]
    simp only [hcopy]
  · intro s3 hcopy hchk
    rw [updateLibrary]
    simp only [hcopy, hchk]

/-- Witness for C1: a concrete install whose consistency check fails
(the directory lacks the referenced `b.css`), followed by `getId`
returning nothing. -/
theorem claim_C1_witness :
    ((installLibrary [("library.json", "m"), ("a.js", "x")]
        (⟨"H5P.T", 1, 0, 2, false, ["a.js"], ["b.css"], false⟩ : LibraryMetadata)
        false ⟨[], [], [], 0⟩).1
      = .error (.filesMissing ⟨"H5P.T", 1, 0⟩ ["b.css"]))
    ∧ stGetId (installLibrary [("library.json", "m"), ("a.js", "x")]
        (⟨"H5P.T", 1, 0, 2, false, ["a.js"], ["b.css"], false⟩ : LibraryMetadata)
        false ⟨[], [], [], 0⟩).2 ⟨"H5P.T", 1, 0⟩ = none :=
  ⟨by rfl,
   (claim_C1_rollback_on_failure [("library.json", "m"), ("a.js", "x")]
     (⟨"H5P.T", 1, 0, 2, false, ["a.js"], ["b.css"], false⟩ : LibraryMetadata)
     false ⟨[], [], [], 0⟩ (.filesMissing ⟨"H5P.T", 1, 0⟩ ["b.css"])).1 (by rfl)⟩

theorem find?_version_of_lookup (L : List (LibraryName × LMRecord)) (md : LibraryMetadata)
    (record_ : LMRecord)
    (hwf : ∀ p ∈ L, p.2.metadata.name = p.1)
    (hfind : (L.find? (fun p => p.1 == md.name)).map (·.2) = some record_) :
    (L.filterMap (fun p =>
        if p.1.machineName == md.machineName then some p.2 else none)).find?
      (fun r => r.metadata.majorVersion == md.majorVersion
        && r.metadata.minorVersion == md.minorVersion) = some record_ := by
  induction L with
  | nil => simp at hfind
  | cons a t ih =>
    obtain ⟨⟨x, y, z⟩, arec⟩ := a
    have hname := hwf _ (List.mem_cons_self _ t)
    by_cases hk : (⟨x, y, z⟩ : LibraryName) = md.name
    · have h1 : ((⟨x, y, z⟩ : LibraryName) == md.name) = true := by simp [hk]
      simp only [List.find?_cons, h1, Option.map_some'] at hfind
      have ha2 : arec = record_ := by simpa using hfind
      have hmn : (x == md.machineName) = true := by
        have := congrArg LibraryName.machineName hk
        simp only [LibraryMetadata.name] at this
        simp [this]
      simp only [List.filterMap_cons, hmn, if_true]
      have hmaj : arec.metadata.majorVersion = md.majorVersion := by
        have := congrArg LibraryName.majorVersion (hname.trans hk)
        simpa [LibraryMetadata.name] using this
      have hmin : arec.metadata.minorVersion = md.minorVersion := by
        have := congrArg LibraryName.minorVersion (hname.trans hk)
        simpa [LibraryMetadata.name] using this
      simp only [List.find?_cons,
        show (arec.metadata.majorVersion == md.majorVersion
          && arec.metadata.minorVersion == md.minorVersion) = true by simp [hmaj, hmin]]
      rw [ha2]
    · have h1 : ((⟨x, y, z⟩ : LibraryName) == md.name) = false := by simp [hk]
      simp only [List.find?_cons, h1] at hfind
      have iht := ih (fun p hp => hwf p (List.mem_cons_of_mem _ hp)) hfind
      by_cases hmn : (x == md.machineName) = true
      · have hver : ¬(arec.metadata.majorVersion = md.majorVersion
            ∧ arec.metadata.minorVersion = md.minorVersion) := by
          rintro ⟨hM, hm⟩
          apply hk
          have e2 : y = md.majorVersion := by
            have := congrArg LibraryName.majorVersion hname
            simp only [LibraryMetadata.name] at this
            omega
          have e3 : z = md.minorVersion := by
            have := congrArg LibraryName.minorVersion hname
            simp only [LibraryMetadata.name] at this
            omega
          have e1 : x = md.machineName := by simpa using hmn
          rw [e1, e2, e3]
          rfl
        have hpred : (arec.metadata.majorVersion == md.majorVersion
            && arec.metadata.minorVersion == md.minorVersion) = false := by
          by_cases hM : arec.metadata.majorVersion = md.majorVersion
          · by_cases hm2 : arec.metadata.minorVersion = md.minorVersion
            · exact absurd ⟨hM, hm2⟩ hver
            · simp [hm2]
          · simp [hM]
        simp only [List.filterMap_cons, hmn, if_true, List.find?_cons, hpred]
        exact iht
      · simp only [List.filterMap_cons]
        rw [if_neg hmn]
        exact iht

theorem isPatchedLibrary_of_lookup (md : LibraryMetadata) (s : LMStorage)
    (record_ : LMRecord)
    (hwf : ∀ p ∈ s.libraries, p.2.metadata.name = p.1)
    (hrec : stLookup s md.name = some record_) :
    isPatchedLibrary md s = decide (record_.metadata.patchVersion < md.patchVersion) := by
  rw [stLookup] at hrec
  rw [isPatchedLibrary, installedOfMachineName,
    find?_version_of_lookup s.libraries md record_ hwf hrec]

/-- C4: For every call to `installFromDirectory` on an identity that is
already installed (with a nonzero storage id, as the storage assigns): if
the candidate's patch version is not strictly greater than the installed
patch at equal major/minor, the call is a no-op returning `false` that
leaves storage unchanged; if the candidate patch is strictly greater, the
call takes the update path — its result is the update's, mapped to `true`
on success. -/
theorem claim_C4_patch_gate (md : LibraryMetadata) (dir : List (String × String))
    (restricted : Bool) (s : LMStorage) (record_ : LMRecord)
    (hwf : ∀ p ∈ s.libraries, p.2.metadata.name = p.1)
    (hrec : stLookup s md.name = some record_) (hid : record_.id ≠ 0) :
    (¬ record_.metadata.patchVersion < md.patchVersion →
      installFromDirectory md dir restricted s = (.ok false, s))
    ∧ (record_.metadata.patchVersion < md.patchVersion →
      installFromDirectory md dir restricted s
        = ((updateLibrary md dir s).1.map (fun _ => true), (updateLibrary md dir s).2)) := by
  have htruthy : truthyId (stGetId s md.name) = true := by
    rw [stGetId, hrec]
    simp [truthyId, hid]
  have hpatch := isPatchedLibrary_of_lookup md s record_ hwf hrec
  constructor
  · intro hlt
    rw [installFromDirectory, htruthy, if_pos rfl, hpatch]
    rw [if_neg (by simpa using hlt)]
  · intro hlt
    rw [installFromDirectory, htruthy, if_pos rfl, hpatch]
    rw [if_pos (by simpa using hlt)]

/-- Witness for C4: a concrete already-installed identity; same patch is a
no-op returning `false`, higher patch takes the update path. -/
theorem claim_C4_witness :
    ((∀ p ∈ ([((⟨"H5P.T", 1, 0⟩ : LibraryName),
        (⟨⟨"H5P.T", 1, 0, 2, false, [], [], false⟩, 1, false⟩ : LMRecord))] :
          List (LibraryName × LMRecord)), p.2.metadata.name = p.1)
    ∧ installFromDirectory (⟨"H5P.T", 1, 0, 2, false, [], [], false⟩ : LibraryMetadata)
        [("library.json", "m")] false
        ⟨[(⟨"H5P.T", 1, 0⟩, ⟨⟨"H5P.T", 1, 0, 2, false, [], [], false⟩, 1, false⟩)], [], [], 1⟩
      = (.ok false,
        ⟨[(⟨"H5P.T", 1, 0⟩, ⟨⟨"H5P.T", 1, 0, 2, false, [], [], false⟩, 1, false⟩)], [], [], 1⟩)) :=
  ⟨by decide,
   (claim_C4_patch_gate (⟨"H5P.T", 1, 0, 2, false, [], [], false⟩ : LibraryMetadata)
     [("library.json", "m")] false
     ⟨[(⟨"H5P.T", 1, 0⟩, ⟨⟨"H5P.T", 1, 0, 2, false, [], [], false⟩, 1, false⟩)], [], [], 1⟩
     ⟨⟨"H5P.T", 1, 0, 2, false, [], [], false⟩, 1, false⟩
     (by decide) (by rfl) (by decide)).1 (by decide)⟩

theorem checkConsistency_eq (library : LibraryName) (s : LMStorage) (record_ : LMRecord)
    (htruthy : truthyId (stGetId s library) = true)
    (hrec : stLookup s library = some record_) :
    checkConsistency library s
      = (checkFiles s library (record_.metadata.preloadedJs) >>= fun _ =>
          checkFiles s library (record_.metadata.preloadedCss) >>= fun _ =>
            pure true) := by
  rw [checkConsistency, htruthy]
  simp only [Bool.not_true, Bool.false_eq_true, if_false]
  rw [hrec]

/-- C7, amended: When the post-copy consistency check fails, the
reported error lists every missing file **of the first failing category**:
all missing `preloadedJs` files if any is missing; otherwise all missing
`preloadedCss` files. (The two categories are checked by separate
sequential `checkFiles` calls, and the first failing call throws.) -/
theorem claim_C7_reports_all_missing_of_category (library : LibraryName) (s : LMStorage)
    (record_ : LMRecord) (hrec : stLookup s library = some record_)
    (hid : record_.id ≠ 0) :
    (record_.metadata.preloadedJs.filter (fun f => !stFileExists s library f) ≠ [] →
      checkConsistency library s
        = .error (.filesMissing library
            (record_.metadata.preloadedJs.filter (fun f => !stFileExists s library f))))
    ∧ (record_.metadata.preloadedJs.filter (fun f => !stFileExists s library f) = [] →
       record_.metadata.preloadedCss.filter (fun f => !stFileExists s library f) ≠ [] →
      checkConsistency library s
        = .error (.filesMissing library
            (record_.metadata.preloadedCss.filter (fun f => !stFileExists s library f)))) := by
  have htruthy : truthyId (stGetId s library) = true := by
    rw [stGetId, hrec]
    simp [truthyId, hid]
  constructor
  · intro hjs
    have hcf : checkFiles s library (record_.metadata.preloadedJs)
        = .error (.filesMissing library
            (record_.metadata.preloadedJs.filter (fun f => !stFileExists s library f))) := by
      rw [checkFiles]
      simp only [List.isEmpty_iff, hjs, if_false]
    rw [checkConsistency_eq library s record_ htruthy hrec, hcf]
    rfl
  · intro hjs hcss
    have hcf1 : checkFiles s library (record_.metadata.preloadedJs) = .ok true := by
      rw [checkFiles]
      simp only [List.isEmpty_iff, hjs, if_true]
    have hcf2 : checkFiles s library (record_.metadata.preloadedCss)
        = .error (.filesMissing library
            (record_.metadata.preloadedCss.filter (fun f => !stFileExists s library f))) := by
      rw [checkFiles]
      simp only [List.isEmpty_iff, hcss, if_false]
    rw [checkConsistency_eq library s record_ htruthy hrec, hcf1, hcf2]
    rfl

/-- C7, counterexample: With `a.js` (preloadedJs) and `b.css`
(preloadedCss) both referenced and both absent from storage, the
consistency check reports only `a.js`: `b.css` is a missing referenced
file that the error does not list. -/
theorem claim_C7_counterexample :
    checkConsistency ⟨"H5P.T", 1, 0⟩
        ⟨[(⟨"H5P.T", 1, 0⟩,
           ⟨⟨"H5P.T", 1, 0, 2, false, ["a.js"], ["b.css"], false⟩, 1, false⟩)], [], [], 1⟩
      = .error (.filesMissing ⟨"H5P.T", 1, 0⟩ ["a.js"])
    ∧ stFileExists ⟨[(⟨"H5P.T", 1, 0⟩,
          ⟨⟨"H5P.T", 1, 0, 2, false, ["a.js"], ["b.css"], false⟩, 1, false⟩)], [], [], 1⟩
        ⟨"H5P.T", 1, 0⟩ "b.css" = false
    ∧ "b.css" ∈ (⟨"H5P.T", 1, 0, 2, false, ["a.js"], ["b.css"], false⟩
        : LibraryMetadata).preloadedCss
    ∧ "b.css" ∉ ["a.js"] :=
  ⟨by rfl, by decide, by decide, by decide⟩

/-- Witness for C7 at a concrete state: one missing preloadedJs file, the
error lists it. -/
theorem claim_C7_witness :
    (stLookup ⟨[(⟨"H5P.W", 1, 0⟩,
          ⟨⟨"H5P.W", 1, 0, 2, false, ["a.js", "c.js"], [], false⟩, 1, false⟩)], [], [], 1⟩
        ⟨"H5P.W", 1, 0⟩
      = some ⟨⟨"H5P.W", 1, 0, 2, false, ["a.js", "c.js"], [], false⟩, 1, false⟩)
    ∧ ((1 : Nat) ≠ 0)
    ∧ checkConsistency ⟨"H5P.W", 1, 0⟩
        ⟨[(⟨"H5P.W", 1, 0⟩,
           ⟨⟨"H5P.W", 1, 0, 2, false, ["a.js", "c.js"], [], false⟩, 1, false⟩)], [], [], 1⟩
      = .error (.filesMissing ⟨"H5P.W", 1, 0⟩ ["a.js", "c.js"]) :=
  ⟨by decide, by decide,
   by
    have h := (claim_C7_reports_all_missing_of_category ⟨"H5P.W", 1, 0⟩
      ⟨[(⟨"H5P.W", 1, 0⟩,
         ⟨⟨"H5P.W", 1, 0, 2, false, ["a.js", "c.js"], [], false⟩, 1, false⟩)], [], [], 1⟩
      ⟨⟨"H5P.W", 1, 0, 2, false, ["a.js", "c.js"], [], false⟩, 1, false⟩
      (by decide) (by decide)).1 (by decide)
    exact h.trans (by rfl)⟩

theorem stFileExists_stAddLibraryFile (s : LMStorage) (lib : LibraryName)
    (q c : String) (s2 : LMStorage) (h : stAddLibraryFile s lib q c = .ok s2)
    (p : String) :
    stFileExists s2 lib p = (if p = q then true else stFileExists s lib p) := by
  rw [stAddLibraryFile] at h
  by_cases hf : (lib, q) ∈ s.failsOn
  · rw [if_pos hf] at h
    exact Except.noConfusion h
  · rw [if_neg hf] at h
    injection h with h2
    rw [← h2, stFileExists]
    by_cases hpq : p = q
    · rw [if_pos hpq]
      simp only [List.find?_cons]
      rw [show (((lib, q), c).1 == (lib, p)) = true by simp [hpq]]
      rfl
    · rw [if_neg hpq, stFileExists]
      simp only [List.find?_cons]
      rw [show (((lib, q), c).1 == (lib, p)) = false by
        simp only [beq_eq_false_iff_ne, ne_eq, Prod.mk.injEq, not_and]
        exact fun _ hq => hpq hq.symm]
      rw [find?_filter_of_false _ _ _ (fun a _ ha => by
        simp only [bne, Bool.not_eq_false', beq_iff_eq] at ha
        simp only [ha, beq_eq_false_iff_ne, ne_eq, Prod.mk.injEq, not_and]
        exact fun _ hq => hpq hq.symm)]

theorem copyGo_mono (lib : LibraryName) (l : List (String × String)) (s s' : LMStorage)
    (h : copyGo lib l s = (none, s')) (p : String)
    (hex : stFileExists s lib p = true) : stFileExists s' lib p = true := by
  induction l generalizing s with
  | nil =>
    simp only [copyGo, Prod.mk.injEq] at h
    rw [← h.2]
    exact hex
  | cons qd rest ih =>
    obtain ⟨q, d⟩ := qd
    rw [copyGo] at h
    by_cases hq : q = "library.json"
    · rw [if_pos (by simp [hq])] at h
      exact ih s h hex
    · rw [if_neg (by simp [hq])] at h
      cases hadd : stAddLibraryFile s lib q d with
      | error e =>
        rw [hadd] at h
        simp at h
      | ok s2 =>
        rw [hadd] at h
        refine ih s2 h ?_
        rw [stFileExists_stAddLibraryFile s lib q d s2 hadd p]
        by_cases hpq : p = q
        · rw [if_pos hpq]
        · rw [if_neg hpq]
          exact hex

theorem copyGo_mem (lib : LibraryName) (l : List (String × String)) (s s' : LMStorage)
    (p c : String) (hmem : (p, c) ∈ l) (hlib : p ≠ "library.json")
    (h : copyGo lib l s = (none, s')) : stFileExists s' lib p = true := by
  induction l generalizing s with
  | nil => simp at hmem
  | cons qd rest ih =>
    obtain ⟨q, d⟩ := qd
    rw [copyGo] at h
    rcases List.mem_cons.mp hmem with heq | hmem2
    · injection heq with hpq hcd
      subst hpq
      rw [if_neg (by simp [hlib])] at h
      cases hadd : stAddLibraryFile s lib p d with
      | error e =>
        rw [hadd] at h
        simp at h
      | ok s2 =>
        rw [hadd] at h
        refine copyGo_mono lib rest s2 s' h p ?_
        rw [stFileExists_stAddLibraryFile s lib p d s2 hadd p, if_pos rfl]
    · by_cases hq : q = "library.json"
      · rw [if_pos (by simp [hq])] at h
        exact ih s hmem2 h
      · rw [if_neg (by simp [hq])] at h
        cases hadd : stAddLibraryFile s lib q d with
        | error e =>
          rw [hadd] at h
          simp at h
        | ok s2 =>
          rw [hadd] at h
          exact ih s2 hmem2 h

/-- C8, amended: During a fresh install's (and the update path's) copy
step, every file in the source directory **matching the `**/*.*` glob**
(no segment starting with a dot and a dot somewhere in the basename) except
the `library.json` metadata descriptor itself is copied into storage for the
new library — files without a dot in their basename are skipped by the glob. -/
theorem claim_C8_glob_files_copied (dir : List (String × String)) (lib : LibraryName)
    (s s' : LMStorage) (p c : String)
    (hmem : (p, c) ∈ dir) (hglob : matchesCopyGlob p = true)
    (hlib : p ≠ "library.json")
    (hok : copyLibraryFiles dir lib s = (none, s')) :
    stFileExists s' lib p = true := by
  rw [copyLibraryFiles] at hok
  exact copyGo_mem lib _ s s' p c (List.mem_filter.mpr ⟨hmem, hglob⟩) hlib hok

/-- C8, counterexample: A file named `LICENSE` (no dot in its name) is
in the source directory and is not `library.json`, yet after a successful
copy it is absent from storage: the `**/*.*` glob never selects it. -/
theorem claim_C8_counterexample :
    copyLibraryFiles [("LICENSE", "x")] ⟨"H5P.A", 1, 0⟩ ⟨[], [], [], 0⟩
      = (none, ⟨[], [], [], 0⟩)
    ∧ ("LICENSE", "x") ∈ [("LICENSE", "x")]
    ∧ "LICENSE" ≠ "library.json"
    ∧ stFileExists ⟨[], [], [], 0⟩ ⟨"H5P.A", 1, 0⟩ "LICENSE" = false :=
  ⟨by decide, by decide, by decide, by decide⟩

/-- Witness for C8: the glob-matching `a.js` is copied. -/
theorem claim_C8_witness :
    (("a.js", "x") ∈ [("library.json", "m"), ("a.js", "x")]
    ∧ matchesCopyGlob "a.js" = true
    ∧ ("a.js" : String) ≠ "library.json"
    ∧ copyLibraryFiles [("library.json", "m"), ("a.js", "x")] ⟨"H5P.A", 1, 0⟩
        ⟨[], [], [], 0⟩
      = (none, ⟨[], [((⟨"H5P.A", 1, 0⟩, "a.js"), "x")], [], 0⟩)
    ∧ stFileExists ⟨[], [((⟨"H5P.A", 1, 0⟩, "a.js"), "x")], [], 0⟩
        ⟨"H5P.A", 1, 0⟩ "a.js" = true) :=
  ⟨by decide, by decide, by decide, by decide,
   claim_C8_glob_files_copied [("library.json", "m"), ("a.js", "x")] ⟨"H5P.A", 1, 0⟩
     ⟨[], [], [], 0⟩ ⟨[], [((⟨"H5P.A", 1, 0⟩, "a.js"), "x")], [], 0⟩ "a.js" "x"
     (by decide) (by decide) (by decide) (by decide)⟩

end LibraryManager

namespace PackageManager

/-- C3: Processing a package archive that contains an entry whose
normalized path escapes the extraction root (for example `../../evil.sh`)
fails with a structural error — reporting an escaping entry — and no file
from that archive is ever written to (or outside) the extraction target:
the validator throws before extraction begins. -/
theorem claim_C3_zip_slip_rejected (archive : List (String × String))
    (installLibraries copyContent : Bool) (name content : String)
    (hmem : (name, content) ∈ archive) (hesc : escapesRoot name = true) :
    (∃ p, (processPackage archive installLibraries copyContent).1
        = .error (.structuralError p) ∧ escapesRoot p = true)
    ∧ (processPackage archive installLibraries copyContent).2 = [] := by
  obtain ⟨entry, hentry⟩ : ∃ entry,
      archive.find? (fun e => escapesRoot e.1) = some entry := by
    cases hf : archive.find? (fun e => escapesRoot e.1) with
    | some e => exact ⟨e, rfl⟩
    | none =>
      have hnone := List.find?_eq_none.mp hf (name, content) hmem
      simp [hesc] at hnone
  have hp : escapesRoot entry.1 = true := by
    have h2 := List.find?_some (p := fun (e : String × String) => escapesRoot e.1) hentry
    simpa using h2
  rw [processPackage, validatePackage, hentry]
  exact ⟨⟨entry.1, rfl, hp⟩, rfl⟩

/-- Witness for C3: the concrete archive containing `../../evil.sh`. -/
theorem claim_C3_witness :
    (("../../evil.sh", "x") ∈ [(("../../evil.sh" : String), ("x" : String))]
    ∧ escapesRoot "../../evil.sh" = true
    ∧ (∃ p, (processPackage [("../../evil.sh", "x")] true true).1
        = .error (.structuralError p) ∧ escapesRoot p = true)
    ∧ (processPackage [("../../evil.sh", "x")] true true).2 = []) :=
  ⟨by decide, by decide,
   (claim_C3_zip_slip_rejected [("../../evil.sh", "x")] true true
     "../../evil.sh" "x" (by decide) (by decide)).1,
   (claim_C3_zip_slip_rejected [("../../evil.sh", "x")] true true
     "../../evil.sh" "x" (by decide) (by decide)).2⟩

end PackageManager

/-- Witness for C9 at a concrete library name. -/
theorem claim_C9_witness :
    ("H5P.Example" : String) ≠ ""
      ∧ (∀ c ∈ ("H5P.Example" : String).data, c.isWhitespace = false)
      ∧ LibraryName.fromUberName (LibraryName.toUberName ⟨"H5P.Example", 1, 0⟩)
          = some ⟨"H5P.Example", 1, 0⟩ :=
  ⟨by decide, by decide,
    claim_C9_fromUberName_toUberName_roundtrip ⟨"H5P.Example", 1, 0⟩ (by decide) (by decide)⟩

end H5P
